import Mathlib

/-!
Verification of the domain-scan discovery engine.

Go strings are modelled as `List Char`; Go maps with string keys are
modelled as insertion-ordered association lists; Go `int` is `Int`.
Network-facing calls (subfinder passive enumeration, the httpx bulk
certificate prober) are parameters ("oracles") of the orchestrator,
since their effect is decided by the network.
-/

namespace DomainScan

/-- View of `Except` as a sum, to derive decidable equality. -/
def exceptToSum {ε α : Type} : Except ε α → ε ⊕ α
  | .error e => .inl e
  | .ok a => .inr a

instance {ε α : Type} [DecidableEq ε] [DecidableEq α] : DecidableEq (Except ε α) :=
  fun x y =>
    decidable_of_iff (exceptToSum x = exceptToSum y)
      (by cases x <;> cases y <;> simp [exceptToSum])

/-- A Go string, modelled as its list of characters. -/
abbrev GoStr := List Char

/-- Coerce a Lean string literal to a `GoStr`. -/
def gs (s : String) : GoStr := s.data

/-- `strings.ToLower` (ASCII-relevant part of Go case folding). -/
def goToLower (s : GoStr) : GoStr := s.map Char.toLower

/-- `strings.HasSuffix`. -/
def goHasSuffix (s suffix : GoStr) : Bool := decide (suffix <:+ s)

/-- `strings.HasPrefix`. -/
def goHasPrefix (s pre : GoStr) : Bool := decide (pre <+: s)

/-- `strings.Contains`. -/
def goContains (s sub : GoStr) : Bool := decide (sub <:+: s)

/-- `strings.Split` with a single-character separator. -/
def goSplit (s : GoStr) (sep : Char) : List GoStr := s.splitOn sep

/-- `strings.FieldsFunc`: split on runs of separator characters,
dropping empty fields. -/
def goFieldsFunc (s : GoStr) (p : Char → Bool) : List GoStr :=
  (s.splitOnP p).filter (fun t => !t.isEmpty)

/-- Insert a key into a Go `map[string]bool` used as a set
(insertion-ordered, duplicates dropped). -/
def insertIfAbsent (acc : List GoStr) (k : GoStr) : List GoStr :=
  if acc.contains k then acc else acc ++ [k]

end DomainScan

namespace DomainScan

/-! ### pkg/utils/keywords.go -/

/-- The hard-coded fallback TLD list of `loadTLDs` in
`pkg/utils/keywords.go`, returned when parsing the embedded
`tlds.json` fails. -/
def fallbackTLDs : List GoStr :=
  [gs "com", gs "org", gs "net", gs "edu", gs "gov",
   gs "co.uk", gs "co.in", gs "gov.in", gs "gov.uk",
   gs "ac.uk", gs "com.au", gs "org.au"]

/-- `removeTLDs` from `pkg/utils/keywords.go`: remove the longest
matching TLD suffix from a domain, once (not iteratively).  The TLD
set (in Go a `map[string]bool`) is a list parameter because the
embedded `tlds.json` asset is external data. -/
def removeTLDs (domain : GoStr) (tlds : List GoStr) : GoStr :=
  let longestTLD := tlds.foldl
    (fun longest suffix =>
      if (goHasSuffix domain ('.' :: suffix) || domain == suffix)
          && suffix.length > longest.length
      then suffix else longest) []
  if longestTLD.isEmpty then domain
  else if domain == longestTLD then []
  else domain.take (domain.length - longestTLD.length - 1)

/-- The token set contributed by one domain in
`ExtractKeywordsFromDomains`: lowercase, strip the TLD once, take the
last dot-separated label, split it on `-` and `_`, keep tokens of
length ≥ 2. -/
def domainTokens (tlds : List GoStr) (domain : GoStr) : List GoStr :=
  let domain := goToLower domain
  let domain := removeTLDs domain tlds
  if domain.isEmpty then []
  else
    let parts := goSplit domain '.'
    if parts.isEmpty then []
    else
      let orgPart := parts.getLastD []
      let subParts := goFieldsFunc orgPart (fun r => r == '-' || r == '_')
      subParts.filter (fun part => part.length ≥ 2)

/-- `ExtractKeywordsFromDomains` from `pkg/utils/keywords.go`
(the `keywordMap` accumulation loop; the map is modelled as an
insertion-ordered duplicate-free list). -/
def extractKeywordsFromDomains (tlds : List GoStr) (domains : List GoStr) : List GoStr :=
  domains.foldl (fun acc domain => (domainTokens tlds domain).foldl insertIfAbsent acc) []

/-- `strings.TrimSpace`. -/
def goTrimSpace (s : GoStr) : GoStr :=
  ((s.dropWhile Char.isWhitespace).reverse.dropWhile Char.isWhitespace).reverse

/-- `LoadKeywords` from `pkg/utils/keywords.go`: keywords extracted
from the domains united with trimmed, lowercased argument keywords. -/
def loadKeywords (tlds : List GoStr) (domains keywordsInArgument : List GoStr) : List GoStr :=
  let m := (extractKeywordsFromDomains tlds domains).foldl insertIfAbsent []
  keywordsInArgument.foldl
    (fun m keyword =>
      if keyword.isEmpty then m
      else insertIfAbsent m (goToLower (goTrimSpace keyword))) m

/-- `MatchesKeywords` from `pkg/utils/keywords.go`: true iff the
keyword list is empty or some keyword is a case-insensitive substring
of the domain. -/
def matchesKeywords (domain : GoStr) (keywords : List GoStr) : Bool :=
  if keywords.isEmpty then true
  else
    let domainLower := goToLower domain
    keywords.any (fun keyword => goContains domainLower (goToLower keyword))

end DomainScan

namespace DomainScan

/-! ### pkg/discovery/certificate.go -/

/-- The hard-coded TLD map inside `getOrganizationPart` in
`pkg/discovery/certificate.go`. -/
def getOrganizationPartTLDs : List GoStr :=
  [gs "com", gs "net", gs "org", gs "edu", gs "gov", gs "mil",
   gs "biz", gs "info", gs "name", gs "pro", gs "int", gs "arpa",
   gs "app", gs "dev", gs "ai", gs "uk", gs "us", gs "ca",
   gs "au", gs "de", gs "fr", gs "jp", gs "in", gs "cn",
   gs "br", gs "mx", gs "nz", gs "za",
   gs "co.uk", gs "co.in", gs "co.za", gs "co.nz", gs "co.jp",
   gs "gov.in", gs "gov.uk", gs "gov.au", gs "gov.za",
   gs "ac.uk", gs "ac.in", gs "ac.za", gs "ac.nz",
   gs "com.au", gs "com.br", gs "com.cn", gs "com.mx", gs "com.ar",
   gs "net.au", gs "net.br", gs "net.cn", gs "net.mx", gs "net.nz",
   gs "org.au", gs "org.br", gs "org.cn", gs "org.mx", gs "org.nz", gs "org.za",
   gs "edu.au", gs "edu.br", gs "edu.cn", gs "edu.mx"]

/-- `getOrganizationPart` from `pkg/discovery/certificate.go`: the
label immediately left of the (hard-coded) TLD of a domain. -/
def getOrganizationPart (domain : GoStr) : GoStr :=
  let parts := goSplit domain '.'
  if parts.length < 2 then []
  else
    let lastPart := parts.getLastD []
    let domainWithoutTLD :=
      if parts.length ≥ 3 then
        let twoLevelTLD := goToLower ((parts.getD (parts.length - 2) []) ++ '.' :: lastPart)
        if getOrganizationPartTLDs.contains twoLevelTLD then parts.take (parts.length - 2)
        else if getOrganizationPartTLDs.contains (goToLower lastPart) then parts.take (parts.length - 1)
        else parts
      else if parts.length == 2 && getOrganizationPartTLDs.contains (goToLower lastPart) then
        parts.take (parts.length - 1)
      else parts
    if domainWithoutTLD.length > 0 then domainWithoutTLD.getLastD [] else []

/-- `containsKeyword` from `pkg/discovery/certificate.go`: the keyword
equals (case-insensitively) one of the keywords extracted from the
domain, or is a case-insensitive substring of the domain's organization
part.  `utilsTlds` is the TLD set used by the `utils` package
(the embedded `tlds.json`, an external asset). -/
def containsKeyword (utilsTlds : List GoStr) (domain keyword : GoStr) : Bool :=
  let keywordLower := goToLower keyword
  let extracted := extractKeywordsFromDomains utilsTlds [domain]
  if extracted.any (fun e => goToLower e == keywordLower) then true
  else
    let orgPart := getOrganizationPart domain
    if !orgPart.isEmpty then goContains (goToLower orgPart) keywordLower
    else false

/-- The keep-condition of the SAN extraction loop in
`analyzeDomainCertificateOnPort` (certificate.go lines 180-205):
skip empty and wildcard entries; with no keywords keep everything
else; otherwise keep iff some keyword is organizationally relevant
per `containsKeyword`. -/
def sanKept (utilsTlds keywords : List GoStr) (san : GoStr) : Bool :=
  if san.isEmpty || goHasPrefix san (gs "*") then false
  else if keywords.isEmpty then true
  else keywords.any (fun keyword => containsKeyword utilsTlds san keyword)

/-- The SAN extraction loop of `analyzeDomainCertificateOnPort`:
the `subdomains` list accumulated over `result.TLSData.SubjectAN`. -/
def filterSANs (utilsTlds keywords : List GoStr) (sans : List GoStr) : List GoStr :=
  sans.foldl
    (fun subdomains san =>
      if sanKept utilsTlds keywords san then subdomains ++ [san] else subdomains) []

end DomainScan

namespace DomainScan

/-! ### Config (src/unnamed/part_006) and Scanner construction
(src/unnamed/part_004, `New`) -/

/-- `DiscoveryConfig` from part_006.  `timeout` is Go
`time.Duration` in nanoseconds. -/
structure DiscoveryConfig where
  timeout : Int
  threads : Int
  enablePassive : Bool
  enableCertificate : Bool
  recursive : Bool
  recursionDepth : Int
  maxDomains : Int
  sources : List GoStr
deriving DecidableEq

/-- `Config` from part_006. -/
structure Config where
  discovery : DiscoveryConfig
  keywords : List GoStr
  logLevel : GoStr
deriving DecidableEq

/-- `DefaultConfig` from part_006. -/
def defaultConfig : Config :=
  { discovery :=
      { timeout := 10000000000
        threads := 50
        enablePassive := true
        enableCertificate := true
        recursive := true
        recursionDepth := 0
        maxDomains := 0
        sources := [] }
    keywords := []
    logLevel := gs "info" }

/-- The valid log levels accepted by `Config.Validate`. -/
def validLogLevels : List GoStr :=
  [gs "trace", gs "debug", gs "info", gs "warn", gs "error", gs "silent"]

/-- `Config.Validate` from part_006.  It repairs non-positive timeout
and threads and an empty log level in place, and fails only on an
unrecognized non-empty log level; the returned config is the mutated
receiver. -/
def Config.validate (c : Config) : Except GoStr Config :=
  let c := if c.discovery.timeout ≤ 0 then
      { c with discovery := { c.discovery with timeout := 10000000000 } } else c
  let c := if c.discovery.threads ≤ 0 then
      { c with discovery := { c.discovery with threads := 50 } } else c
  if c.logLevel.isEmpty then .ok { c with logLevel := gs "info" }
  else if validLogLevels.contains c.logLevel then .ok c
  else .error (gs "invalid log level: must be one of trace, debug, info, warn, error, silent")

/-- The `Scanner` of part_004 (logger and progress callback omitted:
they carry no state the claims touch). -/
structure Scanner where
  config : Config
deriving DecidableEq

/-- `New` from part_004: nil config is replaced by `DefaultConfig`;
a config failing validation yields a nil `*Scanner` (there is no
error return value in the Go signature, hence `Option`). -/
def new (config? : Option Config) : Option Scanner :=
  let config := config?.getD defaultConfig
  match config.validate with
  | .error _ => none
  | .ok c => some ⟨c⟩

end DomainScan

namespace DomainScan

/-! ### pkg/types and the orchestrator state (src/unnamed/part_004) -/

/-- `types.Source`: a discovery provenance record. -/
structure Source where
  name : GoStr
  type : GoStr
deriving DecidableEq

/-- `types.CertificateInfo` (times as epoch integers). -/
structure CertificateInfo where
  issuedOn : Int
  expiresOn : Int
  issuer : GoStr
  subject : GoStr
deriving DecidableEq

/-- `types.RedirectInfo`. -/
structure RedirectInfo where
  isRedirect : Bool
  redirectsTo : GoStr
  statusCodes : List Int
deriving DecidableEq

/-- `types.DomainEntry` as used by part_004's merge code. -/
structure DomainEntry where
  domain : GoStr
  url : GoStr
  status : Int
  isLive : Bool
  ip : GoStr
  redirect : Option RedirectInfo
  sources : List Source
  certificate : Option CertificateInfo
deriving DecidableEq

/-- The Go map `outputDomains map[string]*DomainEntry`, modelled as an
insertion-ordered association list with unique keys. -/
abbrev OutMap := List (GoStr × DomainEntry)

/-- Map lookup `outputDomains[k]`. -/
def outFind (m : OutMap) (k : GoStr) : Option DomainEntry :=
  (m.find? (fun p => p.1 == k)).map Prod.snd

/-- In-place mutation of the entry a key points to. -/
def outUpdate (m : OutMap) (k : GoStr) (v : DomainEntry) : OutMap :=
  m.map (fun p => if p.1 == k then (p.1, v) else p)

/-- `addSource` from part_004: append a `(name, type)` source unless
an equal pair is already present. -/
def addSource (entry : DomainEntry) (name type : GoStr) : DomainEntry :=
  if entry.sources.any (fun src => src.name == name && src.type == type) then entry
  else { entry with sources := entry.sources ++ [⟨name, type⟩] }

/-- The source-merging loop of `mergeDomainEntries`. -/
def mergeSources (entry : DomainEntry) (srcs : List Source) : DomainEntry :=
  srcs.foldl (fun e src => addSource e src.name src.type) entry

/-- One iteration of `mergeDomainEntries` from part_004: on an
existing key the incoming entry's status, liveness, url, ip, redirect
and certificate overwrite the stored entry's fields and the sources
are merged with deduplication; a new key is inserted as-is. -/
def mergeOne (out : OutMap) (de : DomainEntry) : OutMap :=
  match outFind out de.domain with
  | some existing =>
      let updated := { existing with
        status := de.status
        isLive := de.isLive
        url := de.url
        ip := de.ip
        redirect := de.redirect
        certificate := de.certificate }
      outUpdate out de.domain (mergeSources updated de.sources)
  | none => out ++ [(de.domain, de)]

/-- `mergeDomainEntries` from part_004 (progress reporting elided). -/
def mergeDomainEntries (entries : List DomainEntry) (out : OutMap) : OutMap :=
  entries.foldl mergeOne out

/-- `countLiveDomainsFromMap` from part_004. -/
def countLiveDomainsFromMap (domains : OutMap) : Int :=
  domains.foldl (fun count p => if p.2.isLive then count + 1 else count) 0

/-- A ghost record of one `(phase, hostname)` processing event, with
the recursion depth of the call that marked it. -/
structure Event where
  phase : GoStr
  domain : GoStr
  depth : Int
deriving DecidableEq

/-- The orchestrator's mutable state: the output map and the
`processedDomains` guard set, plus two ghost fields (the processing
event log and the batches sent to the prober) that record what
happened without influencing anything. -/
structure ScanState where
  out : OutMap
  processed : List GoStr
  eventLog : List Event
  probeBatches : List (List GoStr)
deriving DecidableEq

/-- The tracking key `keyPrefix + ":" + domain`. -/
def procKey (keyPrefix domain : GoStr) : GoStr := keyPrefix ++ ':' :: domain

/-- `filterUnprocessedDomains` from part_004 (also the inline passive
filter in `passiveScanWithTracking`): keep the not-yet-processed
domains and mark them processed, recording a ghost event each time. -/
def markFilter (keyPrefix : GoStr) : List GoStr → ScanState → Int → List GoStr × ScanState
  | [], s, _ => ([], s)
  | domain :: rest, s, depth =>
    let key := procKey keyPrefix domain
    if s.processed.contains key then markFilter keyPrefix rest s depth
    else
      let s' := { s with
        processed := s.processed ++ [key]
        eventLog := s.eventLog ++ [⟨keyPrefix, domain, depth⟩] }
      let r := markFilter keyPrefix rest s' depth
      (domain :: r.1, r.2)

/-- The two network-facing collaborators, as deterministic oracles:
`discovery.PassiveDiscoveryWithOptions` and
`discovery.BulkCertificateAnalysisForScanner` (batch, keywords,
extract-new-domains flag). -/
structure Oracles where
  passive : List GoStr → Except GoStr (List GoStr)
  probe : List GoStr → List GoStr → Bool → Except GoStr (List DomainEntry × List GoStr)

/-- The subdomain-registration loop after passive discovery in
`passiveScanWithTracking`: ensure an entry exists and attach the
`(subfinder, passive)` source. -/
def addPassiveEntry (out : OutMap) (subdomain : GoStr) : OutMap :=
  match outFind out subdomain with
  | some entry => outUpdate out subdomain (addSource entry (gs "subfinder") (gs "passive"))
  | none =>
      let entry : DomainEntry :=
        { domain := subdomain, url := [], status := 0, isLive := false, ip := []
          redirect := none, sources := [], certificate := none }
      out ++ [(subdomain, addSource entry (gs "subfinder") (gs "passive"))]

/-- `bulkAnalyzeAndMerge` from part_004.  For a non-`"cert"` key
prefix it filters and marks here; a `"cert"` batch was already
filtered by the caller.  The probed batch is recorded in the ghost
`probeBatches` field. -/
def bulkAnalyzeAndMerge (O : Oracles) (domains keywords : List GoStr)
    (extractNewDomains : Bool) (processKeyPrefix : GoStr) (s : ScanState) (depth : Int) :
    ScanState × List GoStr :=
  let fp :=
    if processKeyPrefix != gs "cert" then markFilter processKeyPrefix domains s depth
    else (domains, s)
  let targetDomains := fp.1
  let s := fp.2
  if targetDomains.isEmpty then (s, [])
  else
    let s := { s with probeBatches := s.probeBatches ++ [targetDomains] }
    match O.probe targetDomains keywords extractNewDomains with
    | .error _ => (s, [])
    | .ok (domainEntries, newDomains) =>
        ({ s with out := mergeDomainEntries domainEntries s.out }, newDomains)

/-- `httpVerificationOnly` from part_004. -/
def httpVerificationOnly (O : Oracles) (domains : List GoStr) (s : ScanState) (depth : Int) :
    ScanState :=
  (bulkAnalyzeAndMerge O domains [] false (gs "http") s depth).1

/-- `isSubdomain` from part_004: more than two dot-separated labels. -/
def isSubdomain (domain : GoStr) : Bool := (goSplit domain '.').length > 2

/-- The `MaxDomains` stop condition of part_004. -/
def capReached (cfg : DiscoveryConfig) (s : ScanState) : Bool :=
  cfg.maxDomains > 0 && (s.out.length : Int) ≥ cfg.maxDomains

/-- The recursion loop at the end of `certificateScanWithTracking`:
walk the newly discovered domains, stopping (Go `return`) as soon as
the max-domains cap is reached, otherwise handing each domain to the
appropriate child scan; a child running out of fuel aborts the run. -/
def recurseFold (cap : ScanState → Bool) (child : GoStr → ScanState → Option ScanState) :
    List GoStr → ScanState → Option ScanState
  | [], s => some s
  | d :: rest, s =>
      if cap s then some s
      else match child d s with
        | none => none
        | some s' => recurseFold cap child rest s'

mutual

/-- `passiveScanWithTracking` from part_004, with a fuel argument (the
Go recursion has no structural bound; fuel exhaustion returns `none`
and sufficient fuel is proved separately). -/
def passiveScan (O : Oracles) (cfg : DiscoveryConfig) :
    Nat → List GoStr → List GoStr → ScanState → Int → Option ScanState
  | 0, _, _, _, _ => none
  | fuel + 1, domains, keywords, s, depth =>
    if !cfg.enablePassive then
      let s := httpVerificationOnly O domains s depth
      if cfg.enableCertificate then certScan O cfg fuel domains keywords s depth
      else some s
    else if cfg.recursionDepth > 0 && depth ≥ cfg.recursionDepth then some s
    else
      let fp := markFilter (gs "passive") domains s depth
      let unprocessedDomains := fp.1
      if unprocessedDomains.isEmpty then some fp.2
      else if capReached cfg fp.2 then some fp.2
      else match O.passive unprocessedDomains with
        | .error _ => some fp.2
        | .ok subdomains =>
            let s := { fp.2 with out := subdomains.foldl addPassiveEntry fp.2.out }
            certScan O cfg fuel (unprocessedDomains ++ subdomains) keywords s depth

/-- `certificateScanWithTracking` from part_004, fuelled like
`passiveScan`. -/
def certScan (O : Oracles) (cfg : DiscoveryConfig) :
    Nat → List GoStr → List GoStr → ScanState → Int → Option ScanState
  | 0, _, _, _, _ => none
  | fuel + 1, domains, keywords, s, depth =>
    if !cfg.enableCertificate then some s
    else if capReached cfg s then some s
    else if domains.isEmpty then some s
    else
      let fp := markFilter (gs "cert") domains s depth
      let validDomains := fp.1
      if validDomains.isEmpty then some fp.2
      else
        let br := bulkAnalyzeAndMerge O validDomains keywords cfg.enableCertificate
          (gs "cert") fp.2 depth

        if !cfg.recursive then some br.1
        else if cfg.recursionDepth > 0 && depth + 1 ≥ cfg.recursionDepth then some br.1
        else
          recurseFold (capReached cfg)
            (fun d s' =>
              if isSubdomain d then certScan O cfg fuel [d] keywords s' (depth + 1)
              else passiveScan O cfg fuel [d] keywords s' (depth + 1))
            br.2 br.1

end

/-- `DiscoveryStats` (the three fields part_004 populates). -/
structure DiscoveryStats where
  totalSubdomains : Int
  activeServices : Int
  tracedDomains : Int
deriving DecidableEq

/-- `AssetDiscoveryResult` (part_003; errors list always empty in
`ScanWithOptions`). -/
structure AssetDiscoveryResult where
  domains : OutMap
  statistics : DiscoveryStats
deriving DecidableEq

/-- The all-empty starting state of `ScanWithOptions`. -/
def initialScanState : ScanState := ⟨[], [], [], []⟩

/-- `ScanWithOptions` from part_004.  The outer `Option` is fuel
exhaustion, an artifact of the embedding; the inner `Except` is the
Go `(result, error)` pair, whose error is non-nil only for an empty
domain list. -/
def scanWithOptions (O : Oracles) (utilsTlds : List GoStr) (c : Config) (fuel : Nat)
    (reqDomains reqKeywords : List GoStr) : Option (Except GoStr AssetDiscoveryResult) :=
  if reqDomains.isEmpty then some (.error (gs "no domains provided"))
  else
    let keywords := loadKeywords utilsTlds reqDomains reqKeywords
    match passiveScan O c.discovery fuel reqDomains keywords initialScanState 0 with
    | none => none
    | some s =>
        let total := (s.out.length : Int)
        let active := countLiveDomainsFromMap s.out
        some (.ok { domains := s.out
                    statistics := ⟨total, active, total - active⟩ })

end DomainScan

namespace DomainScan

/-! ### Lemmas: output-map primitives -/

/-- The key list of the output map. -/
def outKeys (m : OutMap) : List GoStr := m.map Prod.fst

theorem outUpdate_length (m : OutMap) (k : GoStr) (v : DomainEntry) :
    (outUpdate m k v).length = m.length := by
  simp [outUpdate]

theorem outKeys_outUpdate (m : OutMap) (k : GoStr) (v : DomainEntry) :
    outKeys (outUpdate m k v) = outKeys m := by
  induction m with
  | nil => rfl
  | cons p rest ih =>
      simp only [outUpdate, outKeys, List.map_cons] at *
      split <;> exact congrArg (List.cons p.1) ih

theorem mergeOne_length_le (out : OutMap) (de : DomainEntry) :
    (mergeOne out de).length ≤ out.length + 1 := by
  unfold mergeOne
  cases h : outFind out de.domain <;> simp [h, outUpdate_length]

theorem outKeys_mergeOne_pfx (out : OutMap) (de : DomainEntry) :
    outKeys out <+: outKeys (mergeOne out de) := by
  unfold mergeOne
  cases h : outFind out de.domain
  · simp only [h, outKeys, List.map_append]
    exact List.prefix_append _ _
  · rw [outKeys_outUpdate]

theorem mergeDomainEntries_cons (de : DomainEntry) (rest : List DomainEntry) (out : OutMap) :
    mergeDomainEntries (de :: rest) out = mergeDomainEntries rest (mergeOne out de) := rfl

theorem mergeDomainEntries_length_le :
    ∀ (entries : List DomainEntry) (out : OutMap),
      (mergeDomainEntries entries out).length ≤ out.length + entries.length
  | [], out => by simp [mergeDomainEntries]
  | de :: rest, out => by
      have h1 := mergeOne_length_le out de
      have h2 := mergeDomainEntries_length_le rest (mergeOne out de)
      rw [mergeDomainEntries_cons]
      simp only [List.length_cons]
      omega

theorem outKeys_mergeDomainEntries_pfx :
    ∀ (entries : List DomainEntry) (out : OutMap),
      outKeys out <+: outKeys (mergeDomainEntries entries out)
  | [], out => by simp [mergeDomainEntries]
  | de :: rest, out => by
      rw [mergeDomainEntries_cons]
      exact (outKeys_mergeOne_pfx out de).trans
        (outKeys_mergeDomainEntries_pfx rest (mergeOne out de))

theorem addPassiveEntry_length_le (out : OutMap) (sub : GoStr) :
    (addPassiveEntry out sub).length ≤ out.length + 1 := by
  unfold addPassiveEntry
  cases h : outFind out sub <;> simp [h, outUpdate_length]

theorem outKeys_addPassiveEntry_pfx (out : OutMap) (sub : GoStr) :
    outKeys out <+: outKeys (addPassiveEntry out sub) := by
  unfold addPassiveEntry
  cases h : outFind out sub
  · simp only [h, outKeys, List.map_append]
    exact List.prefix_append _ _
  · rw [outKeys_outUpdate]

theorem addPassiveEntries_length_le :
    ∀ (subs : List GoStr) (out : OutMap),
      (subs.foldl addPassiveEntry out).length ≤ out.length + subs.length
  | [], out => by simp
  | sub :: rest, out => by
      have h1 := addPassiveEntry_length_le out sub
      have h2 := addPassiveEntries_length_le rest (addPassiveEntry out sub)
      simp only [List.foldl_cons, List.length_cons] at *
      omega

theorem outKeys_addPassiveEntries_pfx :
    ∀ (subs : List GoStr) (out : OutMap),
      outKeys out <+: outKeys (subs.foldl addPassiveEntry out)
  | [], out => by simp
  | sub :: rest, out => by
      simp only [List.foldl_cons]
      exact (outKeys_addPassiveEntry_pfx out sub).trans
        (outKeys_addPassiveEntries_pfx rest (addPassiveEntry out sub))

/-! ### Lemmas: the mark-and-filter guard -/

theorem markFilter_out (pre : GoStr) :
    ∀ (domains : List GoStr) (s : ScanState) (depth : Int),
      (markFilter pre domains s depth).2.out = s.out
  | [], _, _ => rfl
  | d :: rest, s, depth => by
      simp only [markFilter]
      split
      · exact markFilter_out pre rest s depth
      · exact markFilter_out pre rest _ depth

theorem markFilter_probeBatches (pre : GoStr) :
    ∀ (domains : List GoStr) (s : ScanState) (depth : Int),
      (markFilter pre domains s depth).2.probeBatches = s.probeBatches
  | [], _, _ => rfl
  | d :: rest, s, depth => by
      simp only [markFilter]
      split
      · exact markFilter_probeBatches pre rest s depth
      · exact markFilter_probeBatches pre rest _ depth

theorem markFilter_processed_pfx (pre : GoStr) :
    ∀ (domains : List GoStr) (s : ScanState) (depth : Int),
      s.processed <+: (markFilter pre domains s depth).2.processed
  | [], _, _ => List.prefix_refl _
  | d :: rest, s, depth => by
      simp only [markFilter]
      split
      · exact markFilter_processed_pfx pre rest s depth
      · exact (List.prefix_append _ _).trans
          (markFilter_processed_pfx pre rest
            { s with processed := s.processed ++ [procKey pre d]
                     eventLog := s.eventLog ++ [⟨pre, d, depth⟩] } depth)

theorem markFilter_eventLog_pfx (pre : GoStr) :
    ∀ (domains : List GoStr) (s : ScanState) (depth : Int),
      s.eventLog <+: (markFilter pre domains s depth).2.eventLog
  | [], _, _ => List.prefix_refl _
  | d :: rest, s, depth => by
      simp only [markFilter]
      split
      · exact markFilter_eventLog_pfx pre rest s depth
      · exact (List.prefix_append _ _).trans
          (markFilter_eventLog_pfx pre rest
            { s with processed := s.processed ++ [procKey pre d]
                     eventLog := s.eventLog ++ [⟨pre, d, depth⟩] } depth)

end DomainScan

namespace DomainScan

/-! ### Monotone growth of the scanner state -/

/-- `t` extends `s`: the processed set, event log, output keys and
probe record only grow (by appending), never shrink. -/
def Grows (s t : ScanState) : Prop :=
  s.processed <+: t.processed ∧ s.eventLog <+: t.eventLog ∧
    outKeys s.out <+: outKeys t.out ∧ s.probeBatches <+: t.probeBatches

theorem grows_refl (s : ScanState) : Grows s s :=
  ⟨List.prefix_refl _, List.prefix_refl _, List.prefix_refl _, List.prefix_refl _⟩

theorem grows_trans {a b c : ScanState} (h1 : Grows a b) (h2 : Grows b c) : Grows a c :=
  ⟨h1.1.trans h2.1, h1.2.1.trans h2.2.1, h1.2.2.1.trans h2.2.2.1, h1.2.2.2.trans h2.2.2.2⟩

theorem grows_markFilter (pre : GoStr) (domains : List GoStr) (s : ScanState) (depth : Int) :
    Grows s (markFilter pre domains s depth).2 := by
  refine ⟨markFilter_processed_pfx pre domains s depth,
    markFilter_eventLog_pfx pre domains s depth, ?_, ?_⟩
  · rw [markFilter_out]
  · rw [markFilter_probeBatches]

theorem grows_setOut (s : ScanState) (m : OutMap) (h : outKeys s.out <+: outKeys m) :
    Grows s { s with out := m } :=
  ⟨List.prefix_refl _, List.prefix_refl _, h, List.prefix_refl _⟩

theorem grows_recordBatch (s : ScanState) (b : List GoStr) :
    Grows s { s with probeBatches := s.probeBatches ++ [b] } :=
  ⟨List.prefix_refl _, List.prefix_refl _, List.prefix_refl _, List.prefix_append _ _⟩

theorem grows_bulk (O : Oracles) (domains keywords : List GoStr) (x : Bool) (pre : GoStr)
    (s : ScanState) (depth : Int) :
    Grows s (bulkAnalyzeAndMerge O domains keywords x pre s depth).1 := by
  simp only [bulkAnalyzeAndMerge]
  split
  case isTrue =>
    split
    case isTrue => exact grows_markFilter pre domains s depth
    case isFalse =>
      refine grows_trans (grows_markFilter pre domains s depth) ?_
      split
      · exact grows_recordBatch _ _
      · exact grows_trans (grows_recordBatch _ _)
          (grows_setOut _ _ (outKeys_mergeDomainEntries_pfx _ _))
  case isFalse =>
    split
    case isTrue => exact grows_refl s
    case isFalse =>
      split
      · exact grows_recordBatch _ _
      · exact grows_trans (grows_recordBatch _ _)
          (grows_setOut _ _ (outKeys_mergeDomainEntries_pfx _ _))

theorem grows_http (O : Oracles) (domains : List GoStr) (s : ScanState) (depth : Int) :
    Grows s (httpVerificationOnly O domains s depth) :=
  grows_bulk O domains [] false (gs "http") s depth

theorem recurseFold_grows (cap : ScanState → Bool) (child : GoStr → ScanState → Option ScanState)
    (hchild : ∀ d s t, child d s = some t → Grows s t) :
    ∀ (nd : List GoStr) (s t : ScanState), recurseFold cap child nd s = some t → Grows s t
  | [], s, t, h => by
      simp only [recurseFold] at h
      cases h
      exact grows_refl _
  | d :: rest, s, t, h => by
      simp only [recurseFold] at h
      split at h
      · cases h; exact grows_refl _
      · cases hc : child d s with
        | none => rw [hc] at h; cases h
        | some s' =>
            rw [hc] at h
            exact grows_trans (hchild d s s' hc)
              (recurseFold_grows cap child hchild rest s' t h)

theorem scan_grows (O : Oracles) (cfg : DiscoveryConfig) :
    ∀ fuel : Nat,
      (∀ domains keywords s depth t,
          passiveScan O cfg fuel domains keywords s depth = some t → Grows s t) ∧
      (∀ domains keywords s depth t,
          certScan O cfg fuel domains keywords s depth = some t → Grows s t) := by
  intro fuel
  induction fuel with
  | zero =>
      constructor <;>
        · intro domains keywords s depth t h
          exact absurd h (by simp [passiveScan, certScan])
  | succ fuel ih =>
      obtain ⟨ihp, ihc⟩ := ih
      constructor
      · intro domains keywords s depth t h
        simp only [passiveScan] at h
        split at h
        · -- passive disabled
          split at h
          · exact grows_trans (grows_http O domains s depth) (ihc _ _ _ _ _ h)
          · cases h; exact grows_http O domains s depth
        · split at h
          · cases h; exact grows_refl _
          · split at h
            · cases h; exact grows_markFilter _ domains s depth
            · split at h
              · cases h; exact grows_markFilter _ domains s depth
              · split at h
                · cases h; exact grows_markFilter _ domains s depth
                · exact grows_trans (grows_markFilter (gs "passive") domains s depth)
                    (grows_trans
                      (grows_setOut _ _ (outKeys_addPassiveEntries_pfx _ _))
                      (ihc _ _ _ _ _ h))
      · intro domains keywords s depth t h
        simp only [certScan] at h
        split at h
        · cases h; exact grows_refl _
        · split at h
          · cases h; exact grows_refl _
          · split at h
            · cases h; exact grows_refl _
            · split at h
              · cases h; exact grows_markFilter _ domains s depth
              · refine grows_trans (grows_markFilter (gs "cert") domains s depth) ?_
                refine grows_trans
                  (grows_bulk O (markFilter (gs "cert") domains s depth).1 keywords
                    cfg.enableCertificate (gs "cert")
                    (markFilter (gs "cert") domains s depth).2 depth) ?_
                split at h
                · cases h; exact grows_refl _
                · split at h
                  · cases h; exact grows_refl _
                  · refine recurseFold_grows (capReached cfg) _ ?_ _ _ _ h
                    intro d s' t' hc
                    split at hc
                    · exact ihc _ _ _ _ _ hc
                    · exact ihp _ _ _ _ _ hc

end DomainScan

namespace DomainScan

/-! ### The at-most-once processing invariant -/

/-- Log coherence: no `(phase, hostname)` pair is logged twice, and
every logged pair's tracking key is in the processed set. -/
def logOK (s : ScanState) : Prop :=
  (s.eventLog.map fun e => (e.phase, e.domain)).Nodup ∧
    ∀ e ∈ s.eventLog, procKey e.phase e.domain ∈ s.processed

/-- A state whose processed set extends another's, everything else
equal in the places `logOK` looks at, keeps `logOK`. -/
theorem logOK_mono_processed {s : ScanState} {p' : List GoStr}
    (h : logOK s) (hsub : ∀ k ∈ s.processed, k ∈ p') :
    logOK { s with processed := p' } :=
  ⟨h.1, fun e he => hsub _ (h.2 e he)⟩

theorem markFilter_logOK (pre : GoStr) :
    ∀ (domains : List GoStr) (s : ScanState) (depth : Int),
      logOK s → logOK (markFilter pre domains s depth).2
  | [], _, _, h => h
  | d :: rest, s, depth, h => by
      simp only [markFilter]
      split
      · exact markFilter_logOK pre rest s depth h
      · rename_i hnc
        refine markFilter_logOK pre rest _ depth ?_
        constructor
        · rw [List.map_append, List.nodup_append]
          refine ⟨h.1, by simp, ?_⟩
          intro p hp hq
          simp only [List.map_cons, List.map_nil, List.mem_singleton] at hq
          subst hq
          simp only [List.mem_map] at hp
          obtain ⟨e, he, hpe⟩ := hp
          have hk := h.2 e he
          have : procKey e.phase e.domain = procKey pre d := by
            rw [show e.phase = pre from congrArg Prod.fst hpe,
              show e.domain = d from congrArg Prod.snd hpe]
          rw [this] at hk
          simp at hnc
          exact hnc hk
        · intro e he
          simp only [List.mem_append, List.mem_singleton] at he
          rcases he with he | he
          · exact List.mem_append_left _ (h.2 e he)
          · subst he
            exact List.mem_append_right _ (by simp)

theorem bulk_logOK (O : Oracles) (domains keywords : List GoStr) (x : Bool) (pre : GoStr)
    (s : ScanState) (depth : Int) (h : logOK s) :
    logOK (bulkAnalyzeAndMerge O domains keywords x pre s depth).1 := by
  simp only [bulkAnalyzeAndMerge]
  split
  case isTrue =>
    have hmf := markFilter_logOK pre domains s depth h
    split
    case isTrue => exact hmf
    case isFalse =>
      split
      · exact hmf
      · exact hmf
  case isFalse =>
    split
    case isTrue => exact h
    case isFalse =>
      split
      · exact h
      · exact h

theorem recurseFold_preserve (P : ScanState → Prop) (cap : ScanState → Bool)
    (child : GoStr → ScanState → Option ScanState)
    (hchild : ∀ d s t, P s → child d s = some t → P t) :
    ∀ (nd : List GoStr) (s t : ScanState), P s → recurseFold cap child nd s = some t → P t
  | [], s, t, hp, h => by
      simp only [recurseFold] at h
      cases h
      exact hp
  | d :: rest, s, t, hp, h => by
      simp only [recurseFold] at h
      split at h
      · cases h; exact hp
      · cases hc : child d s with
        | none => rw [hc] at h; cases h
        | some s' =>
            rw [hc] at h
            exact recurseFold_preserve P cap child hchild rest s' t (hchild d s s' hp hc) h

theorem scan_logOK (O : Oracles) (cfg : DiscoveryConfig) :
    ∀ fuel : Nat,
      (∀ domains keywords s depth t, logOK s →
          passiveScan O cfg fuel domains keywords s depth = some t → logOK t) ∧
      (∀ domains keywords s depth t, logOK s →
          certScan O cfg fuel domains keywords s depth = some t → logOK t) := by
  intro fuel
  induction fuel with
  | zero =>
      constructor <;>
        · intro domains keywords s depth t _ h
          exact absurd h (by simp [passiveScan, certScan])
  | succ fuel ih =>
      obtain ⟨ihp, ihc⟩ := ih
      have hbulkhttp : ∀ domains s depth, logOK s →
          logOK (httpVerificationOnly O domains s depth) := by
        intro domains s depth hs
        exact bulk_logOK O domains [] false (gs "http") s depth hs
      constructor
      · intro domains keywords s depth t hs h
        simp only [passiveScan] at h
        split at h
        · split at h
          · exact ihc _ _ _ _ _ (hbulkhttp domains s depth hs) h
          · cases h; exact hbulkhttp domains s depth hs
        · split at h
          · cases h; exact hs
          · have hmf := markFilter_logOK (gs "passive") domains s depth hs
            split at h
            · cases h; exact hmf
            · split at h
              · cases h; exact hmf
              · split at h
                · cases h; exact hmf
                · refine ihc _ _ _ _ _ ?_ h
                  exact ⟨hmf.1, hmf.2⟩
      · intro domains keywords s depth t hs h
        simp only [certScan] at h
        split at h
        · cases h; exact hs
        · split at h
          · cases h; exact hs
          · split at h
            · cases h; exact hs
            · have hmf := markFilter_logOK (gs "cert") domains s depth hs
              split at h
              · cases h; exact hmf
              · have hb := bulk_logOK O (markFilter (gs "cert") domains s depth).1 keywords
                  cfg.enableCertificate (gs "cert") (markFilter (gs "cert") domains s depth).2
                  depth hmf
                split at h
                · cases h; exact hb
                · split at h
                  · cases h; exact hb
                  · refine recurseFold_preserve logOK (capReached cfg) _ ?_ _ _ _ hb h
                    intro d s' t' hp' hc
                    split at hc
                    · exact ihc _ _ _ _ _ hp' hc
                    · exact ihp _ _ _ _ _ hp' hc

end DomainScan

namespace DomainScan

/-! ### Depth bound on processing events -/

/-- All processing events in the log happened strictly below depth `D`. -/
def depthBelow (D : Int) (s : ScanState) : Prop := ∀ e ∈ s.eventLog, e.depth < D

theorem markFilter_depthBelow (pre : GoStr) (D : Int) :
    ∀ (domains : List GoStr) (s : ScanState) (depth : Int),
      depthBelow D s → depth < D → depthBelow D (markFilter pre domains s depth).2
  | [], _, _, hs, _ => hs
  | d :: rest, s, depth, hs, hd => by
      simp only [markFilter]
      split
      · exact markFilter_depthBelow pre D rest s depth hs hd
      · refine markFilter_depthBelow pre D rest _ depth ?_ hd
        intro e he
        simp only [List.mem_append, List.mem_singleton] at he
        rcases he with he | he
        · exact hs e he
        · subst he; exact hd

theorem bulk_depthBelow (O : Oracles) (D : Int) (domains keywords : List GoStr) (x : Bool)
    (pre : GoStr) (s : ScanState) (depth : Int) (hs : depthBelow D s) (hd : depth < D) :
    depthBelow D (bulkAnalyzeAndMerge O domains keywords x pre s depth).1 := by
  simp only [bulkAnalyzeAndMerge]
  split
  case isTrue =>
    have hmf := markFilter_depthBelow pre D domains s depth hs hd
    split
    case isTrue => exact hmf
    case isFalse =>
      split
      · exact hmf
      · exact hmf
  case isFalse =>
    split
    case isTrue => exact hs
    case isFalse =>
      split
      · exact hs
      · exact hs

theorem scan_depthBelow (O : Oracles) (cfg : DiscoveryConfig)
    (hD : 0 < cfg.recursionDepth) :
    ∀ fuel : Nat,
      (∀ domains keywords s depth t, depth < cfg.recursionDepth →
          depthBelow cfg.recursionDepth s →
          passiveScan O cfg fuel domains keywords s depth = some t →
          depthBelow cfg.recursionDepth t) ∧
      (∀ domains keywords s depth t, depth < cfg.recursionDepth →
          depthBelow cfg.recursionDepth s →
          certScan O cfg fuel domains keywords s depth = some t →
          depthBelow cfg.recursionDepth t) := by
  intro fuel
  induction fuel with
  | zero =>
      constructor <;>
        · intro domains keywords s depth t _ _ h
          exact absurd h (by simp [passiveScan, certScan])
  | succ fuel ih =>
      obtain ⟨ihp, ihc⟩ := ih
      constructor
      · intro domains keywords s depth t hd hs h
        simp only [passiveScan] at h
        split at h
        · split at h
          · exact ihc _ _ _ _ _ hd (bulk_depthBelow O _ domains [] false (gs "http")
              s depth hs hd) h
          · cases h
            exact bulk_depthBelow O _ domains [] false (gs "http") s depth hs hd
        · split at h
          · cases h; exact hs
          · have hmf := markFilter_depthBelow (gs "passive") cfg.recursionDepth
              domains s depth hs hd
            split at h
            · cases h; exact hmf
            · split at h
              · cases h; exact hmf
              · split at h
                · cases h; exact hmf
                · refine ihc _ _ _ _ _ hd ?_ h
                  exact fun e he => hmf e he
      · intro domains keywords s depth t hd hs h
        simp only [certScan] at h
        split at h
        · cases h; exact hs
        · split at h
          · cases h; exact hs
          · split at h
            · cases h; exact hs
            · have hmf := markFilter_depthBelow (gs "cert") cfg.recursionDepth
                domains s depth hs hd
              split at h
              · cases h; exact hmf
              · have hb := bulk_depthBelow O cfg.recursionDepth
                  (markFilter (gs "cert") domains s depth).1 keywords
                  cfg.enableCertificate (gs "cert")
                  (markFilter (gs "cert") domains s depth).2 depth hmf hd
                split at h
                · cases h; exact hb
                · split at h
                  · cases h; exact hb
                  · rename_i hguard
                    have hd1 : depth + 1 < cfg.recursionDepth := by
                      simp only [Bool.and_eq_true, decide_eq_true_eq, not_and] at hguard
                      have := hguard hD
                      omega
                    refine recurseFold_preserve (depthBelow cfg.recursionDepth)
                      (capReached cfg) _ ?_ _ _ _ hb h
                    intro d s' t' hp' hc
                    split at hc
                    · exact ihc _ _ _ _ _ hd1 hp' hc
                    · exact ihp _ _ _ _ _ hd1 hp' hc

end DomainScan

namespace DomainScan

/-! ### Counting unprocessed (phase, hostname) pairs -/

theorem filter_length_mono {α : Type} (p q : α → Bool) (h : ∀ a, p a = true → q a = true)
    (l : List α) : (l.filter p).length ≤ (l.filter q).length :=
  (List.monotone_filter_right l (fun x hx => h x hx)).length_le

theorem filter_length_strict {α : Type} (p q : α → Bool) (h : ∀ a, p a = true → q a = true)
    (l : List α) (a : α) (ha : a ∈ l) (hpa : p a = false) (hqa : q a = true) :
    (l.filter p).length < (l.filter q).length := by
  have hsub := List.monotone_filter_right l (fun x hx => h x hx)
  rcases Nat.lt_or_ge (l.filter p).length (l.filter q).length with hlt | hge
  · exact hlt
  · exfalso
    have heq : l.filter p = l.filter q := hsub.eq_of_length (le_antisymm hsub.length_le hge)
    have hmem : a ∈ l.filter q := List.mem_filter_of_mem ha (by simp [hqa])
    rw [← heq] at hmem
    have hpt := (List.mem_filter.mp hmem).2
    rw [hpa] at hpt
    cases hpt

/-- The finite pool of trackable `(phase, hostname)` keys relevant to
the mutual recursion, over a universe `U` of hostnames. -/
def univKeys (U : List GoStr) : List GoStr :=
  U.map (procKey (gs "passive")) ++ U.map (procKey (gs "cert"))

/-- The number of still-unprocessed recursion-relevant keys: this is
the variant of the mutual recursion. -/
def uCount (U : List GoStr) (s : ScanState) : Nat :=
  ((univKeys U).filter (fun k => !s.processed.contains k)).length

theorem notContains_mono {s s' : ScanState}
    (h : ∀ k, k ∈ s.processed → k ∈ s'.processed) :
    ∀ a, (!s'.processed.contains a) = true → (!s.processed.contains a) = true := by
  intro a ha
  simp only [Bool.not_eq_true'] at ha ⊢
  by_contra hc
  rw [Bool.not_eq_false] at hc
  have hm : a ∈ s.processed := by simpa using hc
  have hm' : a ∈ s'.processed := h a hm
  have : s'.processed.contains a = true := by simpa
  rw [this] at ha
  cases ha

theorem uCount_mono (U : List GoStr) {s s' : ScanState}
    (h : ∀ k, k ∈ s.processed → k ∈ s'.processed) : uCount U s' ≤ uCount U s :=
  filter_length_mono _ _ (notContains_mono h) (univKeys U)

theorem uCount_strict (U : List GoStr) {s s' : ScanState} (k : GoStr)
    (hk : k ∈ univKeys U) (hk1 : k ∉ s.processed) (hk2 : k ∈ s'.processed)
    (h : ∀ j, j ∈ s.processed → j ∈ s'.processed) : uCount U s' < uCount U s := by
  refine filter_length_strict _ _ (notContains_mono h) (univKeys U) k hk ?_ ?_
  · simp [hk2]
  · simp [hk1]

end DomainScan

namespace DomainScan

/-! ### Strict progress of the mark-and-filter guard -/

theorem markFilter_valid_subset (pre : GoStr) :
    ∀ (domains : List GoStr) (s : ScanState) (depth : Int) (x : GoStr),
      x ∈ (markFilter pre domains s depth).1 → x ∈ domains
  | [], _, _, x, hx => absurd hx (List.not_mem_nil x)
  | d :: rest, s, depth, x, hx => by
      by_cases hc : s.processed.contains (procKey pre d) = true
      · simp only [markFilter, if_pos hc] at hx
        exact List.mem_cons_of_mem d (markFilter_valid_subset pre rest s depth x hx)
      · simp only [markFilter, if_neg hc] at hx
        rcases List.mem_cons.mp hx with rfl | hx
        · exact List.mem_cons_self x rest
        · exact List.mem_cons_of_mem d (markFilter_valid_subset pre rest _ depth x hx)

theorem markFilter_strict (pre : GoStr) :
    ∀ (domains : List GoStr) (s : ScanState) (depth : Int),
      (markFilter pre domains s depth).1 ≠ [] →
      ∃ d ∈ domains, procKey pre d ∉ s.processed ∧
        procKey pre d ∈ (markFilter pre domains s depth).2.processed
  | [], _, _, h => absurd rfl h
  | d :: rest, s, depth, h => by
      by_cases hc : s.processed.contains (procKey pre d) = true
      · simp only [markFilter, if_pos hc] at h ⊢
        obtain ⟨x, hx, h1, h2⟩ := markFilter_strict pre rest s depth h
        exact ⟨x, List.mem_cons_of_mem d hx, h1, h2⟩
      · simp only [markFilter, if_neg hc] at h ⊢
        refine ⟨d, List.mem_cons_self d rest, by simpa using hc, ?_⟩
        refine (markFilter_processed_pfx pre rest _ depth).subset ?_
        simp

theorem markFilter_uCount_le (pre : GoStr) (U domains : List GoStr) (s : ScanState)
    (depth : Int) : uCount U (markFilter pre domains s depth).2 ≤ uCount U s :=
  uCount_mono U (fun _ hk => (markFilter_processed_pfx pre domains s depth).subset hk)

theorem markFilter_uCount_strict (pre : GoStr) (U : List GoStr)
    (hpre : pre = gs "passive" ∨ pre = gs "cert") (domains : List GoStr) (s : ScanState)
    (depth : Int) (hdom : ∀ x ∈ domains, x ∈ U)
    (hne : (markFilter pre domains s depth).1 ≠ []) :
    uCount U (markFilter pre domains s depth).2 < uCount U s := by
  obtain ⟨d, hd, h1, h2⟩ := markFilter_strict pre domains s depth hne
  refine uCount_strict U (procKey pre d) ?_ h1 h2
    (fun _ hj => (markFilter_processed_pfx pre domains s depth).subset hj)
  rcases hpre with rfl | rfl
  · exact List.mem_append_left _ (List.mem_map_of_mem _ (hdom d hd))
  · exact List.mem_append_right _ (List.mem_map_of_mem _ (hdom d hd))

theorem bulk_uCount_le (O : Oracles) (U domains keywords : List GoStr) (x : Bool)
    (pre : GoStr) (s : ScanState) (depth : Int) :
    uCount U (bulkAnalyzeAndMerge O domains keywords x pre s depth).1 ≤ uCount U s :=
  uCount_mono U (fun _ hk => (grows_bulk O domains keywords x pre s depth).1.subset hk)

theorem bulk_newDomains_subset (O : Oracles) (U : List GoStr)
    (hOq : ∀ b k e p, O.probe b k e = .ok p → ∀ x ∈ p.2, x ∈ U)
    (domains keywords : List GoStr) (x : Bool) (pre : GoStr) (s : ScanState) (depth : Int) :
    ∀ d ∈ (bulkAnalyzeAndMerge O domains keywords x pre s depth).2, d ∈ U := by
  intro d hd
  simp only [bulkAnalyzeAndMerge] at hd
  split at hd <;>
  · split at hd
    · exact absurd hd (List.not_mem_nil d)
    · split at hd
      · exact absurd hd (List.not_mem_nil d)
      · rename_i p heq
        exact hOq _ _ _ _ heq d hd

theorem recurseFold_isSome (U : List GoStr) (cap : ScanState → Bool)
    (child : GoStr → ScanState → Option ScanState) (c : Nat) :
    ∀ (nd : List GoStr) (s : ScanState),
      (∀ d ∈ nd, ∀ s', uCount U s' ≤ c → (child d s').isSome) →
      (∀ d ∈ nd, ∀ s' t, child d s' = some t → uCount U t ≤ uCount U s') →
      uCount U s ≤ c → (recurseFold cap child nd s).isSome
  | [], s, _, _, _ => by simp [recurseFold]
  | d :: rest, s, hchild, hgrow, hu => by
      simp only [recurseFold]
      split
      · simp
      · cases hc : child d s with
        | none =>
            have := hchild d (List.mem_cons_self d rest) s hu
            rw [hc] at this
            cases this
        | some s' =>
            refine recurseFold_isSome U cap child c rest s'
              (fun x hx => hchild x (List.mem_cons_of_mem d hx))
              (fun x hx => hgrow x (List.mem_cons_of_mem d hx))
              ((hgrow d (List.mem_cons_self d rest) s s' hc).trans hu)

end DomainScan

namespace DomainScan

/-! ### Termination of the mutual recursion -/

theorem scan_terminates (O : Oracles) (cfg : DiscoveryConfig) (U : List GoStr)
    (hOp : ∀ b subs, O.passive b = .ok subs → ∀ x ∈ subs, x ∈ U)
    (hOq : ∀ b k e p, O.probe b k e = .ok p → ∀ x ∈ p.2, x ∈ U) :
    ∀ fuel : Nat,
      (∀ domains keywords s depth, (∀ x ∈ domains, x ∈ U) →
          2 * uCount U s + 2 ≤ fuel →
          (passiveScan O cfg fuel domains keywords s depth).isSome = true) ∧
      (∀ domains keywords s depth, (∀ x ∈ domains, x ∈ U) →
          2 * uCount U s + 1 ≤ fuel →
          (certScan O cfg fuel domains keywords s depth).isSome = true) := by
  intro fuel
  induction fuel using Nat.strong_induction_on with
  | _ fuel ih =>
    cases fuel with
    | zero =>
        constructor <;>
          · intro domains keywords s depth _ hfuel
            omega
    | succ f =>
        have ihA := (ih f (Nat.lt_succ_self f)).1
        have ihB := (ih f (Nat.lt_succ_self f)).2
        constructor
        · intro domains keywords s depth hdom hfuel
          simp only [passiveScan]
          split
          · split
            · refine ihB domains keywords _ depth hdom ?_
              have h1 : uCount U (httpVerificationOnly O domains s depth) ≤ uCount U s :=
                uCount_mono U (fun _ hk => (grows_http O domains s depth).1.subset hk)
              omega
            · simp
          · split
            · simp
            · split
              · simp
              · split
                · simp
                · rename_i hne0 hcap
                  have hne : (markFilter (gs "passive") domains s depth).1 ≠ [] := by
                    simpa using hne0
                  have hsu := markFilter_uCount_strict (gs "passive") U (Or.inl rfl)
                    domains s depth hdom hne
                  split
                  · simp
                  · rename_i subs heq
                    refine ihB _ keywords _ depth ?_ ?_
                    · intro x hx
                      rcases List.mem_append.mp hx with hx | hx
                      · exact hdom x
                          (markFilter_valid_subset (gs "passive") domains s depth x hx)
                      · exact hOp _ _ heq x hx
                    · show 2 * uCount U (markFilter (gs "passive") domains s depth).2 + 1 ≤ f
                      omega
        · intro domains keywords s depth hdom hfuel
          simp only [certScan]
          split
          · simp
          · split
            · simp
            · split
              · simp
              · split
                · simp
                · rename_i hne0
                  have hne : (markFilter (gs "cert") domains s depth).1 ≠ [] := by
                    simpa using hne0
                  have hsu := markFilter_uCount_strict (gs "cert") U (Or.inr rfl)
                    domains s depth hdom hne
                  split
                  · simp
                  · split
                    · simp
                    · refine recurseFold_isSome U (capReached cfg) _
                        (uCount U (markFilter (gs "cert") domains s depth).2) _ _
                        ?_ ?_ ?_
                      · intro d hd s' hu
                        have hdU : ∀ x ∈ [d], x ∈ U := by
                          intro x hx
                          rcases List.mem_singleton.mp hx with rfl
                          exact bulk_newDomains_subset O U hOq _ keywords
                            cfg.enableCertificate (gs "cert") _ depth x hd
                        split
                        · exact ihB [d] keywords s' (depth + 1) hdU (by omega)
                        · exact ihA [d] keywords s' (depth + 1) hdU (by omega)
                      · intro d _ s' t hc
                        split at hc
                        · exact uCount_mono U
                            (fun _ hk => ((scan_grows O cfg f).2 _ _ _ _ _ hc).1.subset hk)
                        · exact uCount_mono U
                            (fun _ hk => ((scan_grows O cfg f).1 _ _ _ _ _ hc).1.subset hk)
                      · exact bulk_uCount_le O U _ keywords cfg.enableCertificate
                          (gs "cert") _ depth

end DomainScan

namespace DomainScan

/-! ### The max-domains stop threshold bounds the output size -/

theorem capReached_false_lt (cfg : DiscoveryConfig) (s : ScanState)
    (hN : 0 < cfg.maxDomains) (h : capReached cfg s = false) :
    (s.out.length : Int) < cfg.maxDomains := by
  simp only [capReached, Bool.and_eq_false_iff, decide_eq_false_iff_not] at h
  rcases h with h | h
  · exact absurd hN h
  · omega

theorem bulk_out_length_le (O : Oracles) (L : Int)
    (hOq : ∀ b k e p, O.probe b k e = .ok p → (p.1.length : Int) ≤ L)
    (hL : 0 ≤ L) (domains keywords : List GoStr) (x : Bool) (pre : GoStr)
    (s : ScanState) (depth : Int) :
    ((bulkAnalyzeAndMerge O domains keywords x pre s depth).1.out.length : Int) ≤
      (s.out.length : Int) + L := by
  have hmf : (markFilter pre domains s depth).2.out = s.out := markFilter_out pre domains s depth
  simp only [bulkAnalyzeAndMerge]
  split
  case isTrue =>
    have hmfe : ((markFilter pre domains s depth).2.out.length : Int) =
        (s.out.length : Int) := by rw [hmf]
    split
    · show ((markFilter pre domains s depth).2.out.length : Int) ≤ _
      omega
    · split
      · show ((markFilter pre domains s depth).2.out.length : Int) ≤ _
        omega
      · rename_i ents nds heq
        have hm := mergeDomainEntries_length_le ents (markFilter pre domains s depth).2.out
        have hq : ((ents.length : Int)) ≤ L := hOq _ _ _ _ heq
        show ((mergeDomainEntries ents (markFilter pre domains s depth).2.out).length : Int) ≤ _
        omega
  case isFalse =>
    split
    · show ((s.out.length : Int)) ≤ _
      omega
    · split
      · show ((s.out.length : Int)) ≤ _
        omega
      · rename_i ents nds heq
        have hm := mergeDomainEntries_length_le ents s.out
        have hq : ((ents.length : Int)) ≤ L := hOq _ _ _ _ heq
        show ((mergeDomainEntries ents s.out).length : Int) ≤ _
        omega

theorem recurseFold_outBound (N B : Int) (cap : ScanState → Bool)
    (hcap : ∀ s, cap s = false → (s.out.length : Int) < N)
    (child : GoStr → ScanState → Option ScanState)
    (hchild : ∀ d s t, (s.out.length : Int) < N → child d s = some t →
        (t.out.length : Int) ≤ B) :
    ∀ (nd : List GoStr) (s t : ScanState), recurseFold cap child nd s = some t →
      (t.out.length : Int) ≤ max (s.out.length : Int) B
  | [], s, t, h => by
      simp only [recurseFold] at h
      cases h
      exact le_max_left _ _
  | d :: rest, s, t, h => by
      simp only [recurseFold] at h
      split at h
      · cases h; exact le_max_left _ _
      · rename_i hcf
        cases hc : child d s with
        | none => rw [hc] at h; cases h
        | some s' =>
            rw [hc] at h
            have h1 : (s'.out.length : Int) ≤ B :=
              hchild d s s' (hcap s (by simpa using hcf)) hc
            have h2 := recurseFold_outBound N B cap hcap child hchild rest s' t h
            rw [max_eq_right h1] at h2
            exact h2.trans (le_max_right _ _)

theorem scan_outBound (O : Oracles) (cfg : DiscoveryConfig) (L : Int) (hL : 0 ≤ L)
    (hN : 0 < cfg.maxDomains)
    (hOp : ∀ b subs, O.passive b = .ok subs → (subs.length : Int) ≤ L)
    (hOq : ∀ b k e p, O.probe b k e = .ok p → (p.1.length : Int) ≤ L) :
    ∀ fuel : Nat,
      (∀ domains keywords s depth t,
          (cfg.enablePassive = true ∨ (s.out.length : Int) < cfg.maxDomains) →
          passiveScan O cfg fuel domains keywords s depth = some t →
          (t.out.length : Int) ≤ max (s.out.length : Int) (cfg.maxDomains - 1 + L)) ∧
      (∀ domains keywords s depth t,
          certScan O cfg fuel domains keywords s depth = some t →
          (t.out.length : Int) ≤ max (s.out.length : Int) (cfg.maxDomains - 1 + L)) := by
  intro fuel
  induction fuel with
  | zero =>
      constructor
      · intro domains keywords s depth t _ h
        exact absurd h (by simp [passiveScan])
      · intro domains keywords s depth t h
        exact absurd h (by simp [certScan])
  | succ fuel ih =>
      obtain ⟨ihp, ihc⟩ := ih
      constructor
      · intro domains keywords s depth t hpre h
        simp only [passiveScan] at h
        split at h
        · rename_i hpass
          have hlt : (s.out.length : Int) < cfg.maxDomains := by
            rcases hpre with hpre | hpre
            · rw [hpre] at hpass; simp at hpass
            · exact hpre
          have hs1 : ((httpVerificationOnly O domains s depth).out.length : Int) ≤
              cfg.maxDomains - 1 + L := by
            have := bulk_out_length_le O L hOq hL domains [] false (gs "http") s depth
            simp only [httpVerificationOnly]
            omega
          split at h
          · have h2 := ihc _ _ _ _ _ h
            rw [max_eq_right hs1] at h2
            exact h2.trans (le_max_right _ _)
          · cases h
            exact hs1.trans (le_max_right _ _)
        · split at h
          · cases h; exact le_max_left _ _
          · have hmf : (markFilter (gs "passive") domains s depth).2.out = s.out :=
              markFilter_out (gs "passive") domains s depth
            split at h
            · cases h
              rw [hmf]
              exact le_max_left _ _
            · split at h
              · cases h
                rw [hmf]
                exact le_max_left _ _
              · rename_i hcap
                have hlt : (s.out.length : Int) < cfg.maxDomains := by
                  have := capReached_false_lt cfg _ hN (by simpa using hcap)
                  rw [hmf] at this
                  exact this
                split at h
                · cases h
                  rw [hmf]
                  exact le_max_left _ _
                · rename_i subs heq
                  have hsubs := hOp _ _ heq
                  have hadd := addPassiveEntries_length_le subs
                    (markFilter (gs "passive") domains s depth).2.out
                  have hmfe : ((markFilter (gs "passive") domains s depth).2.out.length : Int) =
                      (s.out.length : Int) := by rw [hmf]
                  have h2 := ihc _ _ _ _ _ h
                  refine h2.trans ((max_le ?_ le_rfl).trans (le_max_right _ _))
                  show ((List.foldl addPassiveEntry
                    (markFilter (gs "passive") domains s depth).2.out subs).length : Int) ≤ _
                  omega
      · intro domains keywords s depth t h
        simp only [certScan] at h
        split at h
        · cases h; exact le_max_left _ _
        · split at h
          · cases h; exact le_max_left _ _
          · rename_i hcap
            have hlt : (s.out.length : Int) < cfg.maxDomains :=
              capReached_false_lt cfg s hN (by simpa using hcap)
            split at h
            · cases h; exact le_max_left _ _
            · have hmf : (markFilter (gs "cert") domains s depth).2.out = s.out :=
                markFilter_out (gs "cert") domains s depth
              split at h
              · cases h
                rw [hmf]
                exact le_max_left _ _
              · have hbr : ((bulkAnalyzeAndMerge O
                    (markFilter (gs "cert") domains s depth).1 keywords
                    cfg.enableCertificate (gs "cert")
                    (markFilter (gs "cert") domains s depth).2 depth).1.out.length : Int) ≤
                    cfg.maxDomains - 1 + L := by
                  have := bulk_out_length_le O L hOq hL
                    (markFilter (gs "cert") domains s depth).1 keywords
                    cfg.enableCertificate (gs "cert")
                    (markFilter (gs "cert") domains s depth).2 depth
                  rw [hmf] at this
                  omega
                split at h
                · cases h
                  exact hbr.trans (le_max_right _ _)
                · split at h
                  · cases h
                    exact hbr.trans (le_max_right _ _)
                  · have h2 := recurseFold_outBound cfg.maxDomains
                      (cfg.maxDomains - 1 + L) (capReached cfg)
                      (fun s' hs' => capReached_false_lt cfg s' hN hs') _ ?hch _ _ _ h
                    case hch =>
                      intro d s' t' hlt' hc
                      split at hc
                      · have h3 := ihc _ _ _ _ _ hc
                        rw [max_eq_right (by omega : (s'.out.length : Int) ≤
                          cfg.maxDomains - 1 + L)] at h3
                        exact h3
                      · have h3 := ihp _ _ _ _ _ (Or.inr hlt') hc
                        rw [max_eq_right (by omega : (s'.out.length : Int) ≤
                          cfg.maxDomains - 1 + L)] at h3
                        exact h3
                    rw [max_eq_right hbr] at h2
                    exact h2.trans (le_max_right _ _)

end DomainScan

namespace DomainScan

/-! ### Merge characterization -/

theorem outFind_outUpdate_self :
    ∀ (m : OutMap) (k : GoStr) (v : DomainEntry),
      (outFind m k).isSome = true → outFind (outUpdate m k v) k = some v
  | [], _, _, h => by simp [outFind] at h
  | p :: rest, k, v, h => by
      by_cases hk : (p.1 == k) = true
      · have hhead : (if (p.1 == k) = true then (p.1, v) else p) = (p.1, v) := if_pos hk
        simp only [outFind, outUpdate, List.map_cons, hhead]
        rw [List.find?_cons_of_pos _ (by simpa using hk)]
        rfl
      · have hhead : (if (p.1 == k) = true then (p.1, v) else p) = p := if_neg hk
        simp only [outFind, outUpdate, List.map_cons, hhead] at h ⊢
        rw [List.find?_cons_of_neg _ (by simpa using hk)] at h ⊢
        exact outFind_outUpdate_self rest k v h

/-! ### SAN filter characterization -/

theorem filterSANs_go (utlds kws : List GoStr) :
    ∀ (sans acc : List GoStr) (x : GoStr),
      x ∈ sans.foldl
          (fun subdomains san =>
            if sanKept utlds kws san then subdomains ++ [san] else subdomains) acc ↔
        x ∈ acc ∨ (x ∈ sans ∧ sanKept utlds kws x = true)
  | [], acc, x => by simp
  | san :: rest, acc, x => by
      simp only [List.foldl_cons]
      by_cases hk : sanKept utlds kws san = true
      · rw [if_pos hk, filterSANs_go utlds kws rest (acc ++ [san]) x]
        constructor
        · rintro (hx | hx)
          · rcases List.mem_append.mp hx with hx | hx
            · exact Or.inl hx
            · rcases List.mem_singleton.mp hx with rfl
              exact Or.inr ⟨List.mem_cons_self x rest, hk⟩
          · exact Or.inr ⟨List.mem_cons_of_mem san hx.1, hx.2⟩
        · rintro (hx | ⟨hmem, hkept⟩)
          · exact Or.inl (List.mem_append_left _ hx)
          · rcases List.mem_cons.mp hmem with rfl | hmem
            · exact Or.inl (List.mem_append_right _ (by simp))
            · exact Or.inr ⟨hmem, hkept⟩
      · rw [if_neg hk, filterSANs_go utlds kws rest acc x]
        constructor
        · rintro (hx | hx)
          · exact Or.inl hx
          · exact Or.inr ⟨List.mem_cons_of_mem san hx.1, hx.2⟩
        · rintro (hx | ⟨hmem, hkept⟩)
          · exact Or.inl hx
          · rcases List.mem_cons.mp hmem with rfl | hmem
            · exact absurd hkept hk
            · exact Or.inr ⟨hmem, hkept⟩

theorem mem_filterSANs (utlds kws sans : List GoStr) (x : GoStr) :
    x ∈ filterSANs utlds kws sans ↔ x ∈ sans ∧ sanKept utlds kws x = true := by
  rw [filterSANs, filterSANs_go utlds kws sans [] x]
  simp

theorem sanKept_iff (utlds kws : List GoStr) (s : GoStr) :
    sanKept utlds kws s = true ↔
      s ≠ [] ∧ goHasPrefix s (gs "*") = false ∧
        (kws = [] ∨ ∃ k ∈ kws, containsKeyword utlds s k = true) := by
  simp only [sanKept]
  by_cases h1 : (s.isEmpty || goHasPrefix s (gs "*")) = true
  · rw [if_pos h1]
    constructor
    · intro hf
      exact Bool.noConfusion hf
    · rintro ⟨hne, hpre, _⟩
      rcases Bool.or_eq_true_iff.mp h1 with h | h
      · exact absurd (by simpa using h) hne
      · rw [h] at hpre
        exact Bool.noConfusion hpre
  · have hor := Bool.or_eq_false_iff.mp (Bool.eq_false_iff.mpr h1)
    have hne : s ≠ [] := by
      intro he
      subst he
      simp at hor
    rw [if_neg h1]
    by_cases h2 : kws.isEmpty = true
    · rw [if_pos h2]
      simp only [true_iff]
      exact ⟨hne, hor.2, Or.inl (by simpa using h2)⟩
    · rw [if_neg h2]
      rw [List.any_eq_true]
      constructor
      · rintro ⟨k, hk, hck⟩
        exact ⟨hne, hor.2, Or.inr ⟨k, hk, hck⟩⟩
      · rintro ⟨_, _, h3 | h3⟩
        · exact absurd (by simp [h3]) h2
        · exact h3

end DomainScan

namespace DomainScan

/-! ### Keyword extraction characterization -/

theorem mem_insertIfAbsent (acc : List GoStr) (k x : GoStr) :
    x ∈ insertIfAbsent acc k ↔ x ∈ acc ∨ x = k := by
  simp only [insertIfAbsent]
  split
  case isTrue h =>
    constructor
    · exact Or.inl
    · rintro (hx | rfl)
      · exact hx
      · simpa using h
  case isFalse h => simp

theorem mem_foldl_insertIfAbsent :
    ∀ (toks acc : List GoStr) (x : GoStr),
      x ∈ toks.foldl insertIfAbsent acc ↔ x ∈ acc ∨ x ∈ toks
  | [], acc, x => by simp
  | t :: rest, acc, x => by
      rw [List.foldl_cons, mem_foldl_insertIfAbsent rest (insertIfAbsent acc t) x,
        mem_insertIfAbsent]
      constructor
      · rintro ((hx | rfl) | hx)
        · exact Or.inl hx
        · exact Or.inr (List.mem_cons_self x rest)
        · exact Or.inr (List.mem_cons_of_mem t hx)
      · rintro (hx | hx)
        · exact Or.inl (Or.inl hx)
        · rcases List.mem_cons.mp hx with rfl | hx
          · exact Or.inl (Or.inr rfl)
          · exact Or.inr hx

theorem extractKeywords_go (tlds : List GoStr) :
    ∀ (domains : List GoStr) (acc : List GoStr) (x : GoStr),
      x ∈ domains.foldl (fun acc d => (domainTokens tlds d).foldl insertIfAbsent acc) acc ↔
        x ∈ acc ∨ ∃ d ∈ domains, x ∈ domainTokens tlds d
  | [], acc, x => by simp
  | d :: rest, acc, x => by
      rw [List.foldl_cons, extractKeywords_go tlds rest _ x, mem_foldl_insertIfAbsent]
      constructor
      · rintro ((hx | hx) | ⟨d', hd', hx⟩)
        · exact Or.inl hx
        · exact Or.inr ⟨d, List.mem_cons_self d rest, hx⟩
        · exact Or.inr ⟨d', List.mem_cons_of_mem d hd', hx⟩
      · rintro (hx | ⟨d', hd', hx⟩)
        · exact Or.inl (Or.inl hx)
        · rcases List.mem_cons.mp hd' with rfl | hd'
          · exact Or.inl (Or.inr hx)
          · exact Or.inr ⟨d', hd', hx⟩

theorem mem_extractKeywordsFromDomains (tlds domains : List GoStr) (x : GoStr) :
    x ∈ extractKeywordsFromDomains tlds domains ↔
      ∃ d ∈ domains, x ∈ domainTokens tlds d := by
  rw [extractKeywordsFromDomains, extractKeywords_go tlds domains [] x]
  simp

/-- The longest-matching-suffix selection loop of `removeTLDs`. -/
theorem removeTLDs_fold_spec (domain : GoStr) :
    ∀ (ts : List GoStr) (acc : GoStr),
      (ts.foldl (fun longest suffix =>
          if (goHasSuffix domain ('.' :: suffix) || domain == suffix)
              && suffix.length > longest.length
          then suffix else longest) acc = acc ∨
        (ts.foldl (fun longest suffix =>
          if (goHasSuffix domain ('.' :: suffix) || domain == suffix)
              && suffix.length > longest.length
          then suffix else longest) acc ∈ ts ∧
          (goHasSuffix domain ('.' :: ts.foldl (fun longest suffix =>
            if (goHasSuffix domain ('.' :: suffix) || domain == suffix)
                && suffix.length > longest.length
            then suffix else longest) acc) ||
            domain == ts.foldl (fun longest suffix =>
              if (goHasSuffix domain ('.' :: suffix) || domain == suffix)
                  && suffix.length > longest.length
              then suffix else longest) acc) = true)) ∧
      acc.length ≤ (ts.foldl (fun longest suffix =>
          if (goHasSuffix domain ('.' :: suffix) || domain == suffix)
              && suffix.length > longest.length
          then suffix else longest) acc).length ∧
      (∀ u ∈ ts, (goHasSuffix domain ('.' :: u) || domain == u) = true →
        u.length ≤ (ts.foldl (fun longest suffix =>
          if (goHasSuffix domain ('.' :: suffix) || domain == suffix)
              && suffix.length > longest.length
          then suffix else longest) acc).length)
  | [], acc => ⟨Or.inl rfl, Nat.le_refl _, fun u hu => absurd hu (List.not_mem_nil u)⟩
  | t :: ts, acc => by
      rw [List.foldl_cons]
      by_cases hcond : ((goHasSuffix domain ('.' :: t) || domain == t)
          && t.length > acc.length) = true
      · rw [if_pos hcond]
        obtain ⟨hsel, hlen, hmax⟩ := removeTLDs_fold_spec domain ts t
        rcases Bool.and_eq_true_iff.mp hcond with ⟨hmatch, hgt⟩
        refine ⟨?_, ?_, ?_⟩
        · rcases hsel with heq | ⟨hmem, hm⟩
          · exact Or.inr ⟨by rw [heq]; exact List.mem_cons_self t ts, by rw [heq]; exact hmatch⟩
          · exact Or.inr ⟨List.mem_cons_of_mem t hmem, hm⟩
        · have : acc.length ≤ t.length := by
            simp only [decide_eq_true_eq] at hgt
            omega
          exact this.trans hlen
        · intro u hu hum
          rcases List.mem_cons.mp hu with rfl | hu
          · exact hlen
          · exact hmax u hu hum
      · rw [if_neg hcond]
        obtain ⟨hsel, hlen, hmax⟩ := removeTLDs_fold_spec domain ts acc
        refine ⟨?_, hlen, ?_⟩
        · rcases hsel with heq | ⟨hmem, hm⟩
          · exact Or.inl heq
          · exact Or.inr ⟨List.mem_cons_of_mem t hmem, hm⟩
        · intro u hu hum
          rcases List.mem_cons.mp hu with rfl | hu
          · have : ¬ u.length > acc.length := by
              intro hg
              exact hcond (by simp [hum, hg])
            have := hlen
            omega
          · exact hmax u hu hum

/-- `removeTLDs` removes exactly one longest matching suffix, or
nothing when no suffix matches. -/
theorem removeTLDs_spec (domain : GoStr) (tlds : List GoStr)
    (hnz : ∀ t ∈ tlds, t ≠ []) :
    ((∀ t ∈ tlds, (goHasSuffix domain ('.' :: t) || domain == t) = false) ∧
      removeTLDs domain tlds = domain) ∨
    (∃ t ∈ tlds, (goHasSuffix domain ('.' :: t) || domain == t) = true ∧
      (∀ u ∈ tlds, (goHasSuffix domain ('.' :: u) || domain == u) = true →
        u.length ≤ t.length) ∧
      removeTLDs domain tlds =
        (if domain == t then [] else domain.take (domain.length - t.length - 1))) := by
  obtain ⟨hsel, _, hmax⟩ := removeTLDs_fold_spec domain tlds []
  by_cases hr : tlds.foldl (fun longest suffix =>
      if (goHasSuffix domain ('.' :: suffix) || domain == suffix)
          && suffix.length > longest.length
      then suffix else longest) [] = []
  · left
    constructor
    · intro t ht
      cases hm : (goHasSuffix domain ('.' :: t) || domain == t) with
      | false => rfl
      | true =>
          have := hmax t ht hm
          rw [hr] at this
          simp only [List.length_nil, Nat.le_zero, List.length_eq_zero] at this
          exact absurd this (hnz t ht)
    · simp only [removeTLDs]
      rw [hr]
      rfl
  · right
    rcases hsel with heq | ⟨hmem, hm⟩
    · exact absurd heq hr
    · refine ⟨_, hmem, hm, fun u hu hum => hmax u hu hum, ?_⟩
      simp only [removeTLDs]
      rw [if_neg (by simpa using hr)]

/-! ### Failed passive enumeration skips the subtree -/

theorem passiveScan_failed (O : Oracles) (cfg : DiscoveryConfig) (err : GoStr)
    (hfail : ∀ b, O.passive b = .error err) (hpass : cfg.enablePassive = true)
    (fuel : Nat) (domains keywords : List GoStr) (s : ScanState) (depth : Int) :
    ∃ t, passiveScan O cfg (fuel + 1) domains keywords s depth = some t ∧ t.out = s.out := by
  simp only [passiveScan, hpass, Bool.not_true]
  rw [if_neg (by simp)]
  split
  · exact ⟨s, rfl, rfl⟩
  · split
    · exact ⟨_, rfl, markFilter_out _ domains s depth⟩
    · split
      · exact ⟨_, rfl, markFilter_out _ domains s depth⟩
      · rw [hfail]
        exact ⟨_, rfl, markFilter_out _ domains s depth⟩

end DomainScan

namespace DomainScan

/-! ### Concrete runs used in counterexamples and witnesses -/

/-- Oracle whose passive source returns a wildcard, mixed-case
hostname and whose prober returns nothing. -/
def oWild : Oracles :=
  { passive := fun _ => .ok [gs "*.Example.COM"]
    probe := fun _ _ _ => .ok ([], []) }

/-- Oracle whose passive source returns three subdomains and whose
prober returns nothing. -/
def o3subs : Oracles :=
  { passive := fun _ => .ok [gs "b.example.com", gs "c.example.com", gs "d.example.com"]
    probe := fun _ _ _ => .ok ([], []) }

/-- Oracle that finds nothing at all. -/
def oTrivial : Oracles :=
  { passive := fun _ => .ok []
    probe := fun _ _ _ => .ok ([], []) }

/-- Oracle whose passive enumerator fails to start. -/
def oFailPassive : Oracles :=
  { passive := fun _ => .error (gs "subfinder failed")
    probe := fun _ _ _ => .ok ([], []) }

/-- Default configuration with `max_domains = 1`. -/
def cfgMax1 : Config :=
  { defaultConfig with discovery := { defaultConfig.discovery with maxDomains := 1 } }

/-- Default configuration with `recursion_depth = 1`. -/
def cfgD1 : DiscoveryConfig :=
  { defaultConfig.discovery with recursionDepth := 1 }

/-- A live entry as it would stand in the output map after a
successful probe. -/
def entryLive : DomainEntry :=
  { domain := gs "a.com", url := gs "https://a.com", status := 200, isLive := true
    ip := gs "1.2.3.4", redirect := none, sources := [⟨gs "httpx", gs "http"⟩]
    certificate := none }

/-- A later, unsuccessful probe result for the same hostname. -/
def entryDead : DomainEntry :=
  { domain := gs "a.com", url := [], status := 0, isLive := false, ip := []
    redirect := none, sources := [⟨gs "traced", gs "passive"⟩], certificate := none }

end DomainScan

namespace DomainScan

/-! ### The organizational filter is at least as strict as full-hostname
substring matching -/

theorem char_toLower_idem (c : Char) : c.toLower.toLower = c.toLower := by
  by_cases h : c.toNat ≥ 65 ∧ c.toNat ≤ 90
  · have h1 : c.toLower = Char.ofNat (c.toNat + 32) := by
      simp only [Char.toLower]
      exact if_pos h
    have hv : (Char.ofNat (c.toNat + 32)).toNat = c.toNat + 32 := by
      obtain ⟨ha, hb⟩ := h
      generalize c.toNat = m at ha hb ⊢
      interval_cases m <;> decide
    rw [h1]
    simp only [Char.toLower]
    rw [if_neg (by rw [hv]; omega)]
  · have h1 : c.toLower = c := by
      simp only [Char.toLower]
      exact if_neg h
    rw [h1, h1]

theorem goToLower_idem (s : GoStr) : goToLower (goToLower s) = goToLower s := by
  simp only [goToLower, List.map_map]
  exact List.map_congr_left (fun a _ => char_toLower_idem a)

theorem getLastD_mem : ∀ (l : List GoStr) (d : GoStr), l ≠ [] → l.getLastD d ∈ l
  | [], _, h => absurd rfl h
  | x :: xs, d, _ => by
      rw [List.getLastD_cons, ← List.getLast_eq_getLastD x xs (List.cons_ne_nil x xs)]
      exact List.getLast_mem (List.cons_ne_nil x xs)

theorem splitOnP_headD_pfx (p : Char → Bool) :
    ∀ l : GoStr, ((l.splitOnP p).headD []) <+: l
  | [] => by
      rw [List.splitOnP_nil]
      exact List.prefix_refl _
  | a :: xs => by
      rw [List.splitOnP_cons]
      by_cases h : p a = true
      · rw [if_pos h]
        exact List.nil_prefix
      · rw [if_neg h]
        cases hsp : xs.splitOnP p with
        | nil => exact absurd hsp (List.splitOnP_ne_nil p xs)
        | cons hd tl =>
            rw [List.modifyHead_cons]
            have hh := splitOnP_headD_pfx p xs
            rw [hsp] at hh
            exact List.cons_prefix_cons.mpr ⟨rfl, hh⟩

theorem mem_splitOnP_ifx (p : Char → Bool) :
    ∀ (l x : GoStr), x ∈ l.splitOnP p → x <:+: l
  | [], x, hx => by
      rw [List.splitOnP_nil] at hx
      rcases List.mem_singleton.mp hx with rfl
      exact List.nil_infix
  | a :: xs, x, hx => by
      rw [List.splitOnP_cons] at hx
      by_cases h : p a = true
      · rw [if_pos h] at hx
        rcases List.mem_cons.mp hx with rfl | hx
        · exact List.nil_infix
        · exact List.infix_cons (mem_splitOnP_ifx p xs x hx)
      · rw [if_neg h] at hx
        cases hsp : xs.splitOnP p with
        | nil => exact absurd hsp (List.splitOnP_ne_nil p xs)
        | cons hd tl =>
            rw [hsp, List.modifyHead_cons] at hx
            rcases List.mem_cons.mp hx with rfl | hx
            · have hh := splitOnP_headD_pfx p xs
              rw [hsp] at hh
              exact (List.cons_prefix_cons.mpr ⟨rfl, hh⟩).isInfix
            · refine List.infix_cons (mem_splitOnP_ifx p xs x ?_)
              rw [hsp]
              exact List.mem_cons_of_mem hd hx

theorem goSplit_mem_ifx (l : GoStr) (c : Char) (x : GoStr) (hx : x ∈ goSplit l c) :
    x <:+: l :=
  mem_splitOnP_ifx _ l x hx

theorem removeTLDs_pfx (dom : GoStr) (tlds : List GoStr) : removeTLDs dom tlds <+: dom := by
  simp only [removeTLDs]
  split
  · exact List.prefix_refl _
  · split
    · exact List.nil_prefix
    · exact List.take_prefix _ _

theorem domainTokens_ifx (tlds : List GoStr) (d e : GoStr)
    (he : e ∈ domainTokens tlds d) : e <:+: goToLower d := by
  simp only [domainTokens, goFieldsFunc] at he
  split at he
  · exact absurd he (List.not_mem_nil e)
  · split at he
    · exact absurd he (List.not_mem_nil e)
    · have he2 := List.mem_of_mem_filter (List.mem_of_mem_filter he)
      have h4 : e <:+: (goSplit (removeTLDs (goToLower d) tlds) '.').getLastD [] :=
        mem_splitOnP_ifx _ _ e he2
      have h5 : (goSplit (removeTLDs (goToLower d) tlds) '.').getLastD [] ∈
          goSplit (removeTLDs (goToLower d) tlds) '.' :=
        getLastD_mem _ _ (List.splitOnP_ne_nil _ _)
      have h6 := goSplit_mem_ifx (removeTLDs (goToLower d) tlds) '.' _ h5
      exact h4.trans (h6.trans (removeTLDs_pfx (goToLower d) tlds).isInfix)

theorem getOrganizationPart_ifx (dom : GoStr) :
    getOrganizationPart dom = [] ∨ getOrganizationPart dom <:+: dom := by
  have hsub : ∀ X : List GoStr, (∀ y ∈ X, y ∈ goSplit dom '.') →
      ((if X.length > 0 then X.getLastD [] else []) = [] ∨
        (if X.length > 0 then X.getLastD [] else []) <:+: dom) := by
    intro X hX
    by_cases hlen : X.length > 0
    · rw [if_pos hlen]
      right
      refine goSplit_mem_ifx dom '.' _ (hX _ (getLastD_mem X [] ?_))
      intro hnil
      rw [hnil] at hlen
      exact absurd hlen (by simp)
    · rw [if_neg hlen]
      exact Or.inl rfl
  simp only [getOrganizationPart]
  split
  · exact Or.inl rfl
  · refine hsub _ ?_
    intro y hy
    split at hy
    · split at hy
      · exact List.take_subset _ _ hy
      · split at hy
        · exact List.take_subset _ _ hy
        · exact hy
    · split at hy
      · exact List.take_subset _ _ hy
      · exact hy

theorem map_toLower_eq_self_of_ifx {l t : GoStr}
    (hf : goToLower t = t) (h : l <:+: t) : goToLower l = l := by
  obtain ⟨u, v, huv⟩ := h
  rw [← huv] at hf
  simp only [goToLower, List.map_append] at hf
  have h1 := List.append_inj hf (by simp)
  exact (List.append_inj h1.1 (by simp)).2

theorem containsKeyword_substring (utlds : List GoStr) (s k : GoStr)
    (h : containsKeyword utlds s k = true) :
    goContains (goToLower s) (goToLower k) = true := by
  have key : goToLower k <:+: goToLower s := by
    simp only [containsKeyword] at h
    split at h
    case isTrue hany =>
      obtain ⟨e, he, heq⟩ := List.any_eq_true.mp hany
      have hek : goToLower e = goToLower k := by simpa using heq
      obtain ⟨d, hd, hed⟩ := (mem_extractKeywordsFromDomains utlds [s] e).mp he
      rw [List.mem_singleton.mp hd] at hed
      have h1 : e <:+: goToLower s := domainTokens_ifx utlds s e hed
      have h2 : goToLower e <:+: goToLower (goToLower s) := by
        simpa only [goToLower] using h1.map Char.toLower
      rw [goToLower_idem] at h2
      rw [← hek]
      exact h2
    case isFalse =>
      split at h
      case isTrue hne =>
        have h1 : goToLower k <:+: goToLower (getOrganizationPart s) := by
          simpa [goContains] using h
        have h2 : getOrganizationPart s <:+: s := by
          rcases getOrganizationPart_ifx s with h0 | h0
          · rw [h0] at hne
            simp at hne
          · exact h0
        refine h1.trans ?_
        simpa only [goToLower] using h2.map Char.toLower
      case isFalse => exact absurd h (by simp)
  simpa [goContains] using key

end DomainScan

namespace DomainScan

/-! ### Claim theorems -/

/-- C1: for every run, each `(phase, hostname)` pair is processed at
most once — `passiveScanWithTracking` and `certificateScanWithTracking`
mark a domain under its phase key before working on it, the processed
set only grows (old entries stay as a prefix), and consequently the
mutual passive/cert recursion terminates for every finite universe `U`
of hostnames supplied by, and returned by, the external sources: fuel
`2 * uCount U s + 2` (at most `4|U| + 2` from a fresh state) always
suffices, so the un-fuelled Go recursion makes finitely many calls. -/
theorem C1_processed_once_and_termination
    (O : Oracles) (cfg : DiscoveryConfig) (U : List GoStr)
    (domains keywords : List GoStr) (s : ScanState) (depth : Int) (fuel : Nat)
    (hOp : ∀ b subs, O.passive b = .ok subs → ∀ x ∈ subs, x ∈ U)
    (hOq : ∀ b k e p, O.probe b k e = .ok p → ∀ x ∈ p.2, x ∈ U)
    (hdom : ∀ x ∈ domains, x ∈ U) (hlog : logOK s) :
    (∀ t, passiveScan O cfg fuel domains keywords s depth = some t →
        s.processed <+: t.processed ∧
        (t.eventLog.map fun e => (e.phase, e.domain)).Nodup) ∧
    (2 * uCount U s + 2 ≤ fuel →
        (passiveScan O cfg fuel domains keywords s depth).isSome = true) := by
  constructor
  · intro t ht
    exact ⟨((scan_grows O cfg fuel).1 _ _ _ _ _ ht).1,
      ((scan_logOK O cfg fuel).1 _ _ _ _ _ hlog ht).1⟩
  · intro hfuel
    exact (scan_terminates O cfg U hOp hOq fuel).1 domains keywords s depth hdom hfuel

theorem C1_witness :
    (passiveScan oTrivial defaultConfig.discovery 6 [gs "example.com"] [gs "example"]
      initialScanState 0).isSome = true := by
  refine (C1_processed_once_and_termination oTrivial defaultConfig.discovery
    [gs "example.com"] [gs "example.com"] [gs "example"] initialScanState 0 6
    ?_ ?_ ?_ ?_).2 (by decide)
  · intro b subs h x hx
    cases h
    exact absurd hx (List.not_mem_nil x)
  · intro b k e p h x hx
    cases h
    exact absurd hx (List.not_mem_nil x)
  · intro x hx
    exact hx
  · exact ⟨List.Pairwise.nil, fun e he => absurd he (List.not_mem_nil e)⟩

/-- C2: if `recursion_depth = D > 0`, no `(phase, hostname)` pair is
processed at a depth exceeding D in any run started at depth 0:
every processing event in the run's log has depth ≤ D (indeed < D). -/
theorem C2_depth_bound (O : Oracles) (cfg : DiscoveryConfig)
    (domains keywords : List GoStr) (out0 : OutMap) (proc0 : List GoStr)
    (pb0 : List (List GoStr)) (fuel : Nat) (t : ScanState)
    (hD : 0 < cfg.recursionDepth)
    (h : passiveScan O cfg fuel domains keywords ⟨out0, proc0, [], pb0⟩ 0 = some t) :
    ∀ e ∈ t.eventLog, e.depth ≤ cfg.recursionDepth := by
  intro e he
  have hlt := (scan_depthBelow O cfg hD fuel).1 domains keywords _ 0 t hD
    (fun e' he' => absurd he' (List.not_mem_nil e')) h e he
  omega

theorem C2_witness :
    (passiveScan oTrivial cfgD1 6 [gs "example.com"] [gs "example"]
      initialScanState 0).elim False
      (fun t => ∀ e ∈ t.eventLog, e.depth ≤ cfgD1.recursionDepth) := by
  cases hrun : passiveScan oTrivial cfgD1 6 [gs "example.com"] [gs "example"]
      initialScanState 0 with
  | none =>
      have hs : (passiveScan oTrivial cfgD1 6 [gs "example.com"] [gs "example"]
          initialScanState 0).isSome = true := by decide
      rw [hrun] at hs
      cases hs
  | some t =>
      simp only [Option.elim]
      exact C2_depth_bound oTrivial cfgD1 [gs "example.com"] [gs "example"]
        [] [] [] 6 t (by decide) hrun

/-- C3 counterexample: merging a later, unsuccessful probe result over
an existing live entry overwrites status, url, ip (and liveness) even
though the later probe does not flip is_live from false to true — the
claimed first-arrival-wins rule fails. -/
theorem C3_counterexample :
    (outFind (mergeDomainEntries [entryDead] [(gs "a.com", entryLive)]) (gs "a.com")).map
        (fun e => (e.status, e.url, e.ip, e.isLive)) =
      some (0, [], [], false) ∧
    entryLive.status = 200 ∧ entryLive.isLive = true ∧ entryDead.isLive = false := by
  decide

/-- C3 amended: when a probe result is merged for a hostname that
already has an entry, the incoming status, url, ip, liveness, redirect
and certificate unconditionally overwrite the stored fields
(last-arrival wins); only the source list is merged with deduplication. -/
theorem C3_merge_overwrites (out : OutMap) (de existing : DomainEntry)
    (h : outFind out de.domain = some existing) :
    outFind (mergeDomainEntries [de] out) de.domain =
      some (mergeSources
        { existing with
          status := de.status
          isLive := de.isLive
          url := de.url
          ip := de.ip
          redirect := de.redirect
          certificate := de.certificate }
        de.sources) := by
  show outFind (mergeOne out de) de.domain = _
  simp only [mergeOne, h]
  exact outFind_outUpdate_self out de.domain _ (by rw [h]; rfl)

theorem C3_witness :
    outFind (mergeDomainEntries [entryDead] [(gs "a.com", entryLive)]) entryDead.domain =
      some (mergeSources
        { entryLive with
          status := entryDead.status
          isLive := entryDead.isLive
          url := entryDead.url
          ip := entryDead.ip
          redirect := entryDead.redirect
          certificate := entryDead.certificate }
        entryDead.sources) :=
  C3_merge_overwrites [(gs "a.com", entryLive)] entryDead entryLive (by decide)

/-- C4 counterexample: with keyword set {"apple"}, the SAN
"apple.example.com" contains the keyword as a case-insensitive
substring of the full hostname — so the claimed C1.matches criterion
keeps it — yet the certificate filter drops it, because it matches
organizationally (against the extracted keyword "example" and the
organization label "example"). -/
theorem C4_counterexample :
    matchesKeywords (gs "apple.example.com") [gs "apple"] = true ∧
    filterSANs fallbackTLDs [gs "apple"] [gs "apple.example.com"] = [] := by
  decide

/-- C4 amended: a SAN survives extraction iff it is non-empty, not a
wildcard, and either the keyword set is empty or some keyword matches
organizationally per `containsKeyword` (case-insensitive equality with
a keyword extracted from the SAN, or substring of the SAN's
organization label) — not substring of the full hostname.  The
organizational criterion is strictly stronger: every kept SAN also
satisfies the full-hostname substring predicate `MatchesKeywords`
(while the converse fails, per the counterexample). -/
theorem C4_san_filter_characterization (utlds keywords sans : List GoStr) (x : GoStr) :
    (x ∈ filterSANs utlds keywords sans ↔
      x ∈ sans ∧ x ≠ [] ∧ goHasPrefix x (gs "*") = false ∧
        (keywords = [] ∨ ∃ k ∈ keywords, containsKeyword utlds x k = true)) ∧
    (x ∈ filterSANs utlds keywords sans → matchesKeywords x keywords = true) := by
  have hiff : x ∈ filterSANs utlds keywords sans ↔
      x ∈ sans ∧ x ≠ [] ∧ goHasPrefix x (gs "*") = false ∧
        (keywords = [] ∨ ∃ k ∈ keywords, containsKeyword utlds x k = true) := by
    rw [mem_filterSANs, sanKept_iff]
  refine ⟨hiff, ?_⟩
  intro hx
  obtain ⟨-, -, -, hk⟩ := hiff.mp hx
  rcases hk with rfl | ⟨k, hk, hck⟩
  · rfl
  · have hne : keywords.isEmpty = true → False := by
      intro he
      rw [List.isEmpty_iff.mp he] at hk
      exact absurd hk (List.not_mem_nil k)
    simp only [matchesKeywords]
    rw [if_neg hne]
    exact List.any_eq_true.mpr ⟨k, hk, containsKeyword_substring utlds x k hck⟩

theorem C4_witness :
    gs "status.apple.com" ∈ filterSANs fallbackTLDs [gs "apple"] [gs "status.apple.com"] ∧
    matchesKeywords (gs "status.apple.com") [gs "apple"] = true := by
  have hmem : gs "status.apple.com" ∈
      filterSANs fallbackTLDs [gs "apple"] [gs "status.apple.com"] := by decide
  exact ⟨hmem,
    (C4_san_filter_characterization fallbackTLDs [gs "apple"] [gs "status.apple.com"]
      (gs "status.apple.com")).2 hmem⟩

end DomainScan

namespace DomainScan

/-- C5 counterexample: a hostname reported by passive enumeration is
keyed verbatim — this run's only output key begins with `*` and
contains uppercase letters, violating the claimed
no-wildcard/lowercase key invariant (the orchestrator never lowercases
and only the certificate filter rejects wildcards). -/
theorem C5_counterexample :
    ((scanWithOptions oWild fallbackTLDs defaultConfig 10 [gs "example.com"] []).map
      (fun r => r.map (fun a => a.domains.map Prod.fst))) =
        some (.ok [gs "*.Example.COM"]) ∧
    goHasPrefix (gs "*.Example.COM") (gs "*") = true ∧
    (gs "*.Example.COM").any (fun c => c.isUpper) = true := by
  decide

/-- C5 amended: certificate SAN extraction never emits empty or
wildcard entries (empty SANs and SANs beginning with `*` are skipped),
but hostnames from passive enumeration are keyed verbatim, with no
lowercasing and no wildcard rejection in the orchestrator. -/
theorem C5_san_no_wildcard (utlds keywords sans : List GoStr) (x : GoStr)
    (h : x ∈ filterSANs utlds keywords sans) :
    x ≠ [] ∧ goHasPrefix x (gs "*") = false := by
  have hm := (mem_filterSANs utlds keywords sans x).mp h
  have h2 := (sanKept_iff utlds keywords x).mp hm.2
  exact ⟨h2.1, h2.2.1⟩

theorem C5_witness :
    gs "www.apple.com" ≠ [] ∧ goHasPrefix (gs "www.apple.com") (gs "*") = false :=
  C5_san_no_wildcard fallbackTLDs [] [gs "www.apple.com"] (gs "www.apple.com") (by decide)

/-- C6 counterexample: with `max_domains = 1`, a single passive batch
of three subdomains leaves three entries in the output while the run
sent no probe batch at all, so `|outputDomains| ≤ N + Δ` with Δ
bounded by the last probe batch (here 0) fails: 3 > 1 + 0. -/
theorem C6_counterexample :
    ((passiveScan o3subs cfgMax1.discovery 10 [gs "example.com"] [gs "example"]
        initialScanState 0).map (fun s => ((s.out.length : Int), s.probeBatches))) =
      some (3, []) ∧
    cfgMax1.discovery.maxDomains = 1 ∧ ¬((3 : Int) ≤ 1 + 0) := by
  decide

/-- C6 amended: if `max_domains = N > 0` and every single merged batch
— passive enumeration results as well as probe entry lists — has size
at most L, then a run from the empty state ends with
`|outputDomains| ≤ N - 1 + L` (the cap is a stop threshold checked at
each re-entry and before each recursive call), and the cap never
removes entries: existing keys persist as a prefix. -/
theorem C6_output_bound (O : Oracles) (cfg : DiscoveryConfig) (L : Int)
    (domains keywords : List GoStr) (fuel : Nat) (t : ScanState)
    (hL : 0 ≤ L) (hN : 0 < cfg.maxDomains)
    (hOp : ∀ b subs, O.passive b = .ok subs → (subs.length : Int) ≤ L)
    (hOq : ∀ b k e p, O.probe b k e = .ok p → (p.1.length : Int) ≤ L)
    (h : passiveScan O cfg fuel domains keywords initialScanState 0 = some t) :
    (t.out.length : Int) ≤ cfg.maxDomains - 1 + L ∧
    (∀ s' u, passiveScan O cfg fuel domains keywords s' 0 = some u →
      outKeys s'.out <+: outKeys u.out) := by
  constructor
  · have h00 : ((initialScanState.out.length : Int)) = 0 := rfl
    have hb := (scan_outBound O cfg L hL hN hOp hOq fuel).1 domains keywords
      initialScanState 0 t (Or.inr (by omega)) h
    rw [h00, max_eq_right (by omega)] at hb
    exact hb
  · intro s' u hu
    exact ((scan_grows O cfg fuel).1 _ _ _ _ _ hu).2.2.1

theorem C6_witness :
    (passiveScan oTrivial cfgMax1.discovery 6 [gs "example.com"] [gs "example"]
      initialScanState 0).elim False
      (fun t => (t.out.length : Int) ≤ cfgMax1.discovery.maxDomains - 1 + 0) := by
  cases hrun : passiveScan oTrivial cfgMax1.discovery 6 [gs "example.com"] [gs "example"]
      initialScanState 0 with
  | none =>
      have hs : (passiveScan oTrivial cfgMax1.discovery 6 [gs "example.com"] [gs "example"]
          initialScanState 0).isSome = true := by decide
      rw [hrun] at hs
      cases hs
  | some t =>
      simp only [Option.elim]
      refine (C6_output_bound oTrivial cfgMax1.discovery 0 [gs "example.com"]
        [gs "example"] 6 t (by omega) (by decide) ?_ ?_ hrun).1
      · intro b subs hsub
        cases hsub
        simp
      · intro b k e p hp
        cases hp
        simp

/-- C7 counterexample: the hard-coded fallback TLD list of `loadTLDs`
lacks six of the suffixes the claim requires it to contain:
mil, io, app, dev, ai and com.br. -/
theorem C7_counterexample :
    gs "mil" ∉ fallbackTLDs ∧ gs "io" ∉ fallbackTLDs ∧ gs "app" ∉ fallbackTLDs ∧
    gs "dev" ∉ fallbackTLDs ∧ gs "ai" ∉ fallbackTLDs ∧ gs "com.br" ∉ fallbackTLDs := by
  decide

/-- C7 amended: the fallback list contains exactly the twelve suffixes
com, org, net, edu, gov, co.uk, co.in, gov.in, gov.uk, ac.uk, com.au
and org.au (in particular it does contain the claimed com, net, org,
edu, gov, co.uk, co.in, gov.in, gov.uk, ac.uk and com.au). -/
theorem C7_fallback_exact :
    (gs "com" ∈ fallbackTLDs ∧ gs "net" ∈ fallbackTLDs ∧ gs "org" ∈ fallbackTLDs ∧
     gs "edu" ∈ fallbackTLDs ∧ gs "gov" ∈ fallbackTLDs ∧ gs "co.uk" ∈ fallbackTLDs ∧
     gs "co.in" ∈ fallbackTLDs ∧ gs "gov.in" ∈ fallbackTLDs ∧
     gs "gov.uk" ∈ fallbackTLDs ∧ gs "ac.uk" ∈ fallbackTLDs ∧
     gs "com.au" ∈ fallbackTLDs ∧ gs "org.au" ∈ fallbackTLDs) ∧
    fallbackTLDs.length = 12 := by
  decide

/-- C8 counterexample: the extracted keyword set is empty for the
non-empty seed set {"a.com"} — the label left of the stripped suffix
is shorter than two characters. -/
theorem C8_counterexample :
    extractKeywordsFromDomains fallbackTLDs [gs "a.com"] = [] ∧
    ([gs "a.com"] : List GoStr) ≠ [] := by
  decide

/-- C8 amended: a keyword is extracted iff some seed yields it as a
length-≥2 token of the `-`/`_` split of the last label of the
suffix-stripped lowercased seed (`domainTokens`), and the suffix strip
removes exactly one longest matching suffix (never iterating); the
extracted set can however be empty for non-empty seeds. -/
theorem C8_extraction_characterization (tlds domains : List GoStr) (x d0 : GoStr)
    (hnz : ∀ t ∈ tlds, t ≠ []) :
    (x ∈ extractKeywordsFromDomains tlds domains ↔
      ∃ d ∈ domains, x ∈ domainTokens tlds d) ∧
    (((∀ t ∈ tlds, (goHasSuffix d0 ('.' :: t) || d0 == t) = false) ∧
        removeTLDs d0 tlds = d0) ∨
      (∃ t ∈ tlds, (goHasSuffix d0 ('.' :: t) || d0 == t) = true ∧
        (∀ u ∈ tlds, (goHasSuffix d0 ('.' :: u) || d0 == u) = true →
          u.length ≤ t.length) ∧
        removeTLDs d0 tlds =
          (if d0 == t then [] else d0.take (d0.length - t.length - 1)))) :=
  ⟨mem_extractKeywordsFromDomains tlds domains x, removeTLDs_spec d0 tlds hnz⟩

theorem C8_witness :
    gs "apple" ∈ extractKeywordsFromDomains fallbackTLDs [gs "apple.co.uk"] :=
  ((C8_extraction_characterization fallbackTLDs [gs "apple.co.uk"] (gs "apple")
      (gs "apple.co.uk") (by decide)).1).mpr
    ⟨gs "apple.co.uk", by decide, by decide⟩

/-- C9: when passive enumeration fails to start, the error is absorbed:
that discovery subtree is skipped (the output map is exactly what it
was before the call), and the overall scan still returns a non-nil
result with a nil error — here, with the failure at the root, the
gathered result is the empty map. -/
theorem C9_passive_failure_absorbed (O : Oracles) (utlds : List GoStr) (c : Config)
    (fuel : Nat) (reqDomains reqKeywords : List GoStr) (err : GoStr)
    (hfail : ∀ b, O.passive b = .error err)
    (hpass : c.discovery.enablePassive = true)
    (hne : reqDomains ≠ []) :
    (∀ domains keywords s depth, ∃ t,
        passiveScan O c.discovery (fuel + 1) domains keywords s depth = some t ∧
          t.out = s.out) ∧
    scanWithOptions O utlds c (fuel + 1) reqDomains reqKeywords =
      some (.ok { domains := [], statistics := ⟨0, 0, 0⟩ }) := by
  refine ⟨fun domains keywords s depth =>
    passiveScan_failed O c.discovery err hfail hpass fuel domains keywords s depth, ?_⟩
  obtain ⟨t, ht, hout⟩ := passiveScan_failed O c.discovery err hfail hpass fuel
    reqDomains (loadKeywords utlds reqDomains reqKeywords) initialScanState 0
  rw [scanWithOptions, if_neg (by simpa using hne)]
  simp only [ht]
  have h0 : t.out = [] := hout
  rw [h0]
  rfl

theorem C9_witness :
    scanWithOptions oFailPassive fallbackTLDs defaultConfig 5 [gs "example.com"] [] =
      some (.ok { domains := [], statistics := ⟨0, 0, 0⟩ }) :=
  (C9_passive_failure_absorbed oFailPassive fallbackTLDs defaultConfig 4
    [gs "example.com"] [] (gs "subfinder failed") (fun _ => rfl) rfl (by decide)).2

/-- C10: `New` returns a nil `*Scanner` — not an error value — whenever
config validation fails (e.g. an unrecognized log level), and a nil
config is replaced by `DefaultConfig`, yielding a non-nil scanner
holding it. -/
theorem C10_new_nil_semantics :
    new none = some ⟨defaultConfig⟩ ∧
      ∀ c err, c.validate = .error err → new (some c) = none := by
  constructor
  · decide
  · intro c err h
    simp only [new, Option.getD]
    rw [h]

theorem C10_witness :
    new (some { defaultConfig with logLevel := gs "verbose" }) = none ∧
      new none = some ⟨defaultConfig⟩ :=
  ⟨C10_new_nil_semantics.2 _
      (gs "invalid log level: must be one of trace, debug, info, warn, error, silent")
      (by decide),
    C10_new_nil_semantics.1⟩

end DomainScan


